import Mathlib

/-!
# Verification of the `ldep` object-file dependency analyser

A shallow embedding of the core data structures and operations of `ldep.c`
(symbol-table scanner, object/symbol cross-reference graph, link engine,
traversal engine, unlink engine, diagnostics), together with theorems
settling the frozen claims about the program.

Conventions of the embedding:
* objects and symbols are identified by their ingest index (`Nat`);
* the raw-pointer intrusive lists of the C source (exporter chains,
  importer chains, link-set chains, the `work` chain of the traversal
  engine) are modelled as Lean `List`s holding the same elements in the
  same order, with a `next` pointer of an element corresponding to the
  tail of the list behind it;
* C functions that can fire an `assert` or call `exit` are modelled with
  `Option`: `none` means the program aborts.  Assertions that merely
  re-check data already forced by the surrounding code (`assert(found =
  tfind(..))` in `linkObj`, `checkCircWorkList` in `depwalk_rec`) are
  elided; the assertion `ref->obj != f` of `depwalk_rec`, which the claims
  name explicitly, is modelled faithfully.
-/

namespace Ldep

/-! ## Name splitting (`splitName`, ldep.c lines 320-340)

`splitName` takes a raw object-header name.  If the name ends in `]`, the
C code looks for the **last** `[` with `strrchr`, NUL-terminates the
library part there, strips the trailing `]`, and returns the member part;
if no `[` exists this is an error (`createObj` then exits).  Otherwise the
whole name is the object name and there is no library. -/

/-- Index of the last occurrence of `c` (C `strrchr`), if any. -/
def lastIdxOf (c : Char) : List Char → Option Nat
  | [] => none
  | x :: xs =>
    match lastIdxOf c xs with
    | some i => some (i + 1)
    | none => if x = c then some 0 else none

/-- Result of `splitName`: a plain object name, a `library[member]` pair,
or the fatal-parse-error case. -/
inductive SplitResult where
  | plain (member : List Char)
  | inLib (lib member : List Char)
  | err
deriving DecidableEq

/-- `splitName` (ldep.c lines 320-340).  The C code tests
`l>0 && name[l-1] == ']'`, then uses `strrchr(name, '[')`, writes NULs at
the bracket positions and returns the member part. -/
def splitName (name : List Char) : SplitResult :=
  if name.getLast? = some ']' then
    match lastIdxOf '[' name with
    | none => SplitResult.err
    | some i => SplitResult.inLib (name.take i) ((name.drop (i + 1)).dropLast)
  else
    SplitResult.plain name

theorem lastIdxOf_eq_none {c : Char} {l : List Char} (h : c ∉ l) :
    lastIdxOf c l = none := by
  induction l with
  | nil => rfl
  | cons x xs ih =>
    simp only [List.mem_cons, not_or] at h
    have hx : ¬ x = c := fun hc => h.1 hc.symm
    simp [lastIdxOf, ih h.2, hx]

theorem lastIdxOf_append_not_mem {c : Char} {l₂ : List Char} (h : c ∉ l₂) (l₁ : List Char) :
    lastIdxOf c (l₁ ++ l₂) =
      match lastIdxOf c l₁ with
      | some i => some i
      | none => none := by
  induction l₁ with
  | nil => simp [lastIdxOf_eq_none h, lastIdxOf]
  | cons x xs ih =>
    simp only [List.cons_append, lastIdxOf]
    rw [show xs.append l₂ = xs ++ l₂ from rfl, ih]
    cases hx : lastIdxOf c xs with
    | some i => simp
    | none => by_cases hxc : x = c <;> simp [hxc]

/-- On `lib ++ [ member ]` with no `[` in `member`, the last `[` is at
index `lib.length`. -/
theorem lastIdxOf_split (lib member : List Char) (hm : '[' ∉ member) :
    lastIdxOf '[' (lib ++ '[' :: (member ++ [']'])) = some lib.length := by
  have h2 : '[' ∉ '[' :: (member ++ [']']) → False := by simp
  induction lib with
  | nil =>
    simp only [List.nil_append, lastIdxOf, List.length_nil]
    have : lastIdxOf '[' (member ++ [']']) = none := by
      apply lastIdxOf_eq_none
      simp only [List.mem_append, List.mem_singleton]
      rintro (h | h)
      · exact hm h
      · exact absurd h (by decide)
    simp [this]
  | cons x xs ih =>
    simp only [List.cons_append, lastIdxOf]
    rw [show xs.append ('[' :: (member ++ [']'])) = xs ++ '[' :: (member ++ [']']) from rfl, ih]
    simp

theorem take_append_cons (y : Char) (lib X : List Char) :
    (lib ++ y :: X).take lib.length = lib := by
  induction lib with
  | nil => rfl
  | cons a as ih => simp [ih]

theorem drop_append_cons (y : Char) (lib X : List Char) :
    (lib ++ y :: X).drop (lib.length + 1) = X := by
  induction lib with
  | nil => rfl
  | cons a as ih => simp [ih]

/-- C3 (amended): an object-header raw name of the form
`lib[member]` — that is, `lib ++ "[" ++ member ++ "]"` with no `[` in
`member`, so the split is at the **last** `[` — yields library `lib` and
member `member`; a raw name ending in `]` with no `[` at all is the fatal
parse error; and a raw name not ending in `]` has no library. -/
theorem splitName_spec :
    (∀ lib member : List Char, '[' ∉ member →
      splitName (lib ++ '[' :: (member ++ [']'])) = SplitResult.inLib lib member) ∧
    (∀ name : List Char, name.getLast? = some ']' → '[' ∉ name →
      splitName name = SplitResult.err) ∧
    (∀ name : List Char, name.getLast? ≠ some ']' →
      splitName name = SplitResult.plain name) := by
  refine ⟨?_, ?_, ?_⟩
  · intro lib member hm
    have hlast : (lib ++ '[' :: (member ++ [']'])).getLast? = some ']' := by
      rw [show lib ++ '[' :: (member ++ [']']) = (lib ++ '[' :: member) ++ [']'] by simp]
      exact List.getLast?_concat _
    rw [splitName, if_pos hlast, lastIdxOf_split lib member hm]
    show SplitResult.inLib ((lib ++ '[' :: (member ++ [']'])).take lib.length)
        ((lib ++ '[' :: (member ++ [']'])).drop (lib.length + 1)).dropLast = _
    rw [take_append_cons, drop_append_cons, List.dropLast_concat]
  · intro name hlast hm
    rw [splitName, if_pos hlast, lastIdxOf_eq_none hm]
  · intro name hlast
    rw [splitName, if_neg hlast]

/-- Witness for `splitName_spec` at concrete inputs. -/
theorem splitName_spec_witness :
    splitName (['l'] ++ '[' :: (['m'] ++ [']'])) = SplitResult.inLib ['l'] ['m'] ∧
    splitName [']'] = SplitResult.err ∧
    splitName ['a'] = SplitResult.plain ['a'] :=
  ⟨splitName_spec.1 ['l'] ['m'] (by decide),
   splitName_spec.2.1 [']'] (by decide) (by decide),
   splitName_spec.2.2 ['a'] (by decide)⟩

/-- Counterexample to C3 as stated: on the raw name `a[b[c]`, which ends
in `]`, the substring before the **first** `[` is `a` and the substring
between that bracket and the trailing `]` is `b[c`, but the code
(`strrchr`) splits at the **last** `[`, giving library `a[b` and member
`c`. -/
theorem splitName_first_bracket_cex :
    splitName ['a', '[', 'b', '[', 'c', ']'] =
      SplitResult.inLib ['a', '[', 'b'] ['c'] ∧
    SplitResult.inLib ['a', '[', 'b'] ['c'] ≠
      SplitResult.inLib ['a'] ['b', '[', 'c'] := by
  constructor
  · rfl
  · decide

/-! ## Scanner buffer (`scan_file`, ldep.c lines 199-207, 396-417)

`scan_file` reads each record with `fscanf(f, "%500s...", buf, &type)`
into `char buf[MAXBUF+1]` after tagging `buf[MAXBUF] = 'X'`.
`%500s` stores at most `MAXBUF = 500` characters of the name token and a
terminating NUL right after them.  After each read the scanner checks
`!buf[MAXBUF]`: if the tag byte was overwritten by the NUL it reports
"Scanner buffer overrun" and returns `-1` (nonzero). -/

def MAXBUF : Nat := 500

/-- The scanner's line buffer just before a record is read:
`MAXBUF` don't-care bytes and the tag byte `X` at index `MAXBUF`. -/
def scanBufInit : List Char := List.replicate MAXBUF ' ' ++ ['X']

/-- Effect of `fscanf` `%500s` on the buffer: the first
`min (token.length) MAXBUF` bytes of the token are stored, followed by a
NUL byte; the rest of the buffer is untouched. -/
def fscanfWrite (buf token : List Char) : List Char :=
  let w := token.take MAXBUF ++ [Char.ofNat 0]
  w ++ buf.drop w.length

/-- The overrun check of `scan_file`: true iff `buf[MAXBUF]` holds NUL
after the token was stored (then `scan_file` prints the overrun
diagnostic and returns nonzero). -/
def scannerOverrun (token : List Char) : Bool :=
  (fscanfWrite scanBufInit token).getD MAXBUF (Char.ofNat 0) = Char.ofNat 0

theorem getD_append_length_add {α : Type} (d : α) (l₁ l₂ : List α) (k : Nat) :
    (l₁ ++ l₂).getD (l₁.length + k) d = l₂.getD k d := by
  induction l₁ with
  | nil => simp
  | cons x xs ih =>
    rw [show (x :: xs).length + k = (xs.length + k) + 1 from by simp; omega,
      List.cons_append, List.getD_cons_succ]
    exact ih

theorem drop_replicate_append {α : Type} (c : α) (t : List α) (n m : Nat) (h : m ≤ n) :
    (List.replicate n c ++ t).drop m = List.replicate (n - m) c ++ t := by
  induction m generalizing n with
  | zero => simp
  | succ k ih =>
    cases n with
    | zero => omega
    | succ n2 =>
      show (List.replicate n2 c ++ t).drop k = _
      rw [ih n2 (by omega), show n2 + 1 - (k + 1) = n2 - k from by omega]

/-- C8 (amended): the scanner accepts a record iff its name token is at
most `MAXBUF - 1 = 499` bytes long; a token of `MAXBUF = 500` bytes or
more overwrites the tag byte and is a fatal scanner-buffer-overrun
error. -/
theorem scannerOverrun_iff (token : List Char) :
    scannerOverrun token = true ↔ MAXBUF ≤ token.length := by
  rcases le_or_lt MAXBUF token.length with h | h
  · have key : (fscanfWrite scanBufInit token).getD MAXBUF (Char.ofNat 0) = Char.ofNat 0 := by
      simp only [fscanfWrite]
      set L := token.take MAXBUF with hL
      have hw : L.length = MAXBUF := by
        rw [hL, List.length_take]
        omega
      rw [List.append_assoc, show MAXBUF = L.length + 0 from by omega, getD_append_length_add]
      rfl
    unfold scannerOverrun
    rw [key]
    simp [h]
  · have htake : token.take MAXBUF = token := List.take_of_length_le (le_of_lt h)
    have key : (fscanfWrite scanBufInit token).getD MAXBUF (Char.ofNat 0) = 'X' := by
      simp only [fscanfWrite, htake]
      have h1 : (token ++ [Char.ofNat 0]).length = token.length + 1 := by simp
      rw [h1, show scanBufInit.drop (token.length + 1) =
            List.replicate (MAXBUF - (token.length + 1)) ' ' ++ ['X'] from
          drop_replicate_append ' ' ['X'] MAXBUF (token.length + 1) (by omega),
        show token ++ [Char.ofNat 0] ++
            (List.replicate (MAXBUF - (token.length + 1)) ' ' ++ ['X']) =
          (token ++ [Char.ofNat 0] ++ List.replicate (MAXBUF - (token.length + 1)) ' ') ++
            ['X'] from by simp]
      set B := token ++ [Char.ofNat 0] ++ List.replicate (MAXBUF - (token.length + 1)) ' '
        with hB
      have hblen : B.length = MAXBUF := by
        rw [hB]
        simp only [List.length_append, List.length_replicate, List.length_singleton]
        omega
      rw [show MAXBUF = B.length + 0 from by omega, getD_append_length_add]
      rfl
    unfold scannerOverrun
    rw [key]
    constructor
    · intro hx
      exact absurd hx (by decide)
    · intro hx
      omega

set_option maxRecDepth 4000 in
/-- Counterexample to C8 as stated: a record whose name token is exactly
500 bytes — within the claimed "at most 500 bytes" — already clobbers
the tag byte, so the scanner reports a buffer overrun instead of
accepting it. -/
theorem scannerOverrun_500_cex :
    scannerOverrun (List.replicate 500 'a') = true := by
  decide

/-! ## Symbol-type update on re-encounter (`scan_file`, ldep.c lines 461-507)

When a symbol record names an existing symbol whose stored type byte
(`name[-1]`) differs from the record's (TOUPPER-normalised under `-f`)
type, the code warns iff neither side is `U`, and overwrites the stored
type iff the stored type is `U`.  The record's type is then classified by
the `switch`: `T D B R G S A C` strong export, `W V` weak export, `U`
import, `?` import only under `force`, anything else a fatal scan
error. -/

/-- `TOUPPER` of ldep.c line 393: uppercase only in `force` mode. -/
def toupperIf (force : Bool) (c : Char) : Char :=
  if force then c.toUpper else c

/-- The type-mismatch block of `scan_file` (ldep.c lines 486-504):
given the stored type byte and the (already TOUPPER-normalised) record
type, returns the new stored type byte and whether the type-mismatch
warning is printed. -/
def symTypeUpdate (stored t : Char) : Char × Bool :=
  if t ≠ stored then
    let warn := stored ≠ 'U' ∧ t ≠ 'U'
    let stored2 := if stored = 'U' then t else stored
    (stored2, decide warn)
  else
    (stored, false)

/-- Classification of a record's type character by the `switch` of
`scan_file` (ldep.c lines 511-559). -/
inductive SymClass where
  | strongExp
  | weakExp
  | imp
  | bad
deriving DecidableEq

/-- The concrete definition types: those classified as exports. -/
def concreteTypes : List Char := ['W', 'V', 'D', 'T', 'B', 'R', 'G', 'S', 'A', 'C']

def classifyType (force : Bool) (c : Char) : SymClass :=
  match toupperIf force c with
  | 'W' => SymClass.weakExp
  | 'V' => SymClass.weakExp
  | 'D' => SymClass.strongExp
  | 'T' => SymClass.strongExp
  | 'B' => SymClass.strongExp
  | 'R' => SymClass.strongExp
  | 'G' => SymClass.strongExp
  | 'S' => SymClass.strongExp
  | 'A' => SymClass.strongExp
  | 'C' => SymClass.strongExp
  | '?' => if force then SymClass.imp else SymClass.bad
  | 'U' => SymClass.imp
  | _ => SymClass.bad

/-- C7 (amended): a stored type other than `U` is never overwritten by a
later differing record type — when both are not `U` only the
type-mismatch warning is emitted (and an accepted record continues to be
processed); a stored `U` is always overwritten with the differing
record's type, which under `force` may be the non-definition type `?`;
once overwritten with a type other than `U`, the stored type never
changes again. -/
theorem symTypeUpdate_spec (stored t : Char) :
    (stored ≠ 'U' → (symTypeUpdate stored t).1 = stored) ∧
    (stored = 'U' → (symTypeUpdate stored t).1 = t) ∧
    ((symTypeUpdate stored t).2 = true ↔ (t ≠ stored ∧ stored ≠ 'U' ∧ t ≠ 'U')) := by
  refine ⟨?_, ?_, ?_⟩
  · intro hs
    unfold symTypeUpdate
    by_cases hts : t = stored <;> simp [hts, hs]
  · intro hs
    subst hs
    unfold symTypeUpdate
    by_cases hts : t = 'U' <;> simp [hts]
  · unfold symTypeUpdate
    by_cases hts : t = stored <;> simp [hts]

/-- Witness for `symTypeUpdate_spec` at concrete inputs. -/
theorem symTypeUpdate_spec_witness :
    ((symTypeUpdate 'T' 'D').1 = 'T') ∧ ((symTypeUpdate 'U' 'T').1 = 'T') ∧
    ((symTypeUpdate 'T' 'D').2 = true ↔ ('D' ≠ 'T' ∧ 'T' ≠ 'U' ∧ 'D' ≠ 'U')) :=
  ⟨(symTypeUpdate_spec 'T' 'D').1 (by decide), (symTypeUpdate_spec 'U' 'T').2.1 (by decide),
   (symTypeUpdate_spec 'T' 'D').2.2⟩

/-- Counterexample to C7 as stated: in `force` mode a record of type `?`
for a symbol whose stored type is `U` is an accepted import record
(`classifyType` yields `imp`), yet it overwrites the stored type with
`?`, which is not a concrete definition type — so an upgrade from `U`
need not go to a concrete definition type. -/
theorem symTypeUpdate_question_cex :
    (symTypeUpdate 'U' (toupperIf true '?')).1 = '?' ∧
    classifyType true '?' = SymClass.imp ∧
    '?' ∉ concreteTypes := by
  decide

/-! ## Export-list fixup (`fixupObj`, ldep.c lines 253-277)

When an object is complete (next object header, or end of file, or the
sentinel after `gatherDanglingUndefs`), `fixupObj` walks its export
array in slot order and appends each export XRef at the **tail** of its
symbol's exporter chain (`sym->exportedBy`); an empty chain receives the
XRef as its head.  Exporter chains are modelled as lists of
`(object index, export slot)` pairs, head first; both the empty-chain
branch and the walk-to-tail branch of the C code are `++ [x]` on that
list. -/

theorem getD_set_self {α : Type} (l : List α) (i : Nat) (v d : α) (h : i < l.length) :
    (l.set i v).getD i d = v := by
  induction l generalizing i with
  | nil => simp at h
  | cons x xs ih =>
    cases i with
    | zero => rfl
    | succ j => exact ih j (by simpa using h)

theorem getD_set_ne {α : Type} (l : List α) (i j : Nat) (v d : α) (h : i ≠ j) :
    (l.set i v).getD j d = l.getD j d := by
  induction l generalizing i j with
  | nil => rfl
  | cons x xs ih =>
    cases i with
    | zero =>
      cases j with
      | zero => exact absurd rfl h
      | succ k => rfl
    | succ i2 =>
      cases j with
      | zero => rfl
      | succ k => exact ih i2 k (fun hc => h (by rw [hc]))

/-- The loop body of `fixupObj`: starting at slot number `slot`, append
the export XRefs `(oi, slot)`, `(oi, slot+1)`, ... for the listed symbols
to the symbols' exporter chains. -/
def fixupExports (oi : Nat) : List (List (Nat × Nat)) → Nat → List Nat →
    List (List (Nat × Nat))
  | acc, _, [] => acc
  | acc, slot, s :: rest =>
    fixupExports oi (acc.set s (acc.getD s [] ++ [(oi, slot)])) (slot + 1) rest

/-- `fixupObj` for object number `oi` whose export slots name the
symbols `exps` (in slot order). -/
def fixupObj (acc : List (List (Nat × Nat))) (oi : Nat) (exps : List Nat) :
    List (List (Nat × Nat)) :=
  fixupExports oi acc 0 exps

/-- Fix up the objects `objs` (each given by its export-slot symbol
list) in ingest order, numbering them from `i`. -/
def fixupAllFrom (acc : List (List (Nat × Nat))) : Nat → List (List Nat) →
    List (List (Nat × Nat))
  | _, [] => acc
  | i, exps :: rest => fixupAllFrom (fixupObj acc i exps) (i + 1) rest

/-- The exporter chains after all ingested objects have been fixed up,
starting from empty chains for `nsyms` symbols. -/
def fixupAll (nsyms : Nat) (objs : List (List Nat)) : List (List (Nat × Nat)) :=
  fixupAllFrom (List.replicate nsyms []) 0 objs

/-- The export slots of symbol `s` in an export array, slots numbered
from `slot`. -/
def slotsOfFrom (s : Nat) : Nat → List Nat → List Nat
  | _, [] => []
  | slot, t :: rest =>
    if t = s then slot :: slotsOfFrom s (slot + 1) rest else slotsOfFrom s (slot + 1) rest

/-- All definition sites of symbol `s`: for each object in ingest order
(numbered from `i`), its export slots naming `s`, in slot order. -/
def defSitesFrom (s : Nat) : Nat → List (List Nat) → List (Nat × Nat)
  | _, [] => []
  | i, exps :: rest =>
    (slotsOfFrom s 0 exps).map (fun sl => (i, sl)) ++ defSitesFrom s (i + 1) rest

theorem fixupExports_length (oi : Nat) (acc : List (List (Nat × Nat))) (slot : Nat)
    (exps : List Nat) : (fixupExports oi acc slot exps).length = acc.length := by
  induction exps generalizing acc slot with
  | nil => rfl
  | cons t rest ih => simp [fixupExports, ih]

theorem fixupExports_getD (oi s : Nat) (acc : List (List (Nat × Nat))) (slot : Nat)
    (exps : List Nat) (hs : s < acc.length) :
    (fixupExports oi acc slot exps).getD s [] =
      acc.getD s [] ++ (slotsOfFrom s slot exps).map (fun sl => (oi, sl)) := by
  induction exps generalizing acc slot with
  | nil => simp [fixupExports, slotsOfFrom]
  | cons t rest ih =>
    by_cases ht : t = s
    · subst ht
      rw [fixupExports, ih _ _ (by simpa using hs), getD_set_self _ _ _ _ hs]
      simp [slotsOfFrom]
    · rw [fixupExports, ih _ _ (by simpa using hs), getD_set_ne _ _ _ _ _ ht]
      simp [slotsOfFrom, ht]

theorem fixupAllFrom_length (acc : List (List (Nat × Nat))) (i : Nat)
    (objs : List (List Nat)) : (fixupAllFrom acc i objs).length = acc.length := by
  induction objs generalizing acc i with
  | nil => rfl
  | cons exps rest ih => simp [fixupAllFrom, ih, fixupObj, fixupExports_length]

theorem fixupAllFrom_getD (s : Nat) (acc : List (List (Nat × Nat))) (i : Nat)
    (objs : List (List Nat)) (hs : s < acc.length) :
    (fixupAllFrom acc i objs).getD s [] = acc.getD s [] ++ defSitesFrom s i objs := by
  induction objs generalizing acc i with
  | nil => simp [fixupAllFrom, defSitesFrom]
  | cons exps rest ih =>
    rw [fixupAllFrom, ih _ _ (by rw [fixupObj, fixupExports_length]; exact hs),
      fixupObj, fixupExports_getD _ _ _ _ _ hs, defSitesFrom, List.append_assoc]

/-- C5: after fixup of all ingested objects, every symbol's exporter
list holds exactly one XRef per definition site, in the order in which
the exporting objects were ingested (and, within one object, in export
slot order) — tail-appending preserves ingest order. -/
theorem fixupAll_exporter_order (nsyms : Nat) (objs : List (List Nat)) (s : Nat)
    (hs : s < nsyms) :
    (fixupAll nsyms objs).getD s [] = defSitesFrom s 0 objs := by
  rw [fixupAll, fixupAllFrom_getD s _ 0 objs (by simpa using hs)]
  simp

/-- Witness for `fixupAll_exporter_order`: two objects both exporting
symbol 0; the exporter list records both sites in ingest order. -/
theorem fixupAll_exporter_order_witness :
    (0 < 2) ∧ (fixupAll 2 [[0, 1], [0]]).getD 0 [] = defSitesFrom 0 0 [[0, 1], [0]] ∧
      defSitesFrom 0 0 [[0, 1], [0]] = [(0, 0), (1, 0)] :=
  ⟨by decide, fixupAll_exporter_order 2 [[0, 1], [0]] 0 (by decide), by decide⟩

/-! ## Multiple-definition scan (`checkMultipleDefs`, ldep.c lines 1113-1172)

For each object `f` on the given link set's chain, skipping objects whose
`work` slot already holds the `BUSY` marker: for each export slot of `f`,
if the slot's symbol's exporter list has more than one entry
(`XREF_NEXT(r)` of the head is non-NULL), the symbol is reported — with
every exporter site and its weak flag — unless its type is `C`; in either
case **every exporter of that symbol is then marked `BUSY`**.  All `work`
marks are cleared at the end (the busy accumulator of the model is simply
dropped).  Reports are collected in emission order. -/

/-- Static data the scan reads: per-object export slots, per-symbol
exporter sites `(object, weak)` (head first, as after fixup), and the
per-symbol stored type byte. -/
structure MDGraph where
  exps : List (List Nat)
  expList : List (List (Nat × Bool))
  symType : List Char
deriving DecidableEq

/-- One emitted name-clash report: the symbol and all its exporter sites
with their weak flags. -/
structure Report where
  sym : Nat
  sites : List (Nat × Bool)
deriving DecidableEq

/-- The export-slot loop of `checkMultipleDefs` for the current object:
the slot symbols still to scan, the busy-marked objects, and the reports
emitted so far. -/
def mdefScanObj (g : MDGraph) : List Nat → List Nat → List Report →
    List Nat × List Report
  | [], busy, reps => (busy, reps)
  | s :: rest, busy, reps =>
    let r := g.expList.getD s []
    if 1 < r.length then
      mdefScanObj g rest (busy ++ r.map Prod.fst)
        (if g.symType.getD s ' ' = 'C' then reps else reps ++ [⟨s, r⟩])
    else
      mdefScanObj g rest busy reps

/-- The object loop of `checkMultipleDefs` over the link set's object
chain, skipping busy-marked objects. -/
def mdefScanSet (g : MDGraph) : List Nat → List Nat → List Report →
    List Nat × List Report
  | [], busy, reps => (busy, reps)
  | f :: fs, busy, reps =>
    if f ∈ busy then
      mdefScanSet g fs busy reps
    else
      let p := mdefScanObj g (g.exps.getD f []) busy reps
      mdefScanSet g fs p.1 p.2

/-- `checkMultipleDefs` on a link set given by its object chain: the
list of emitted reports (the final clearing of all `work` marks drops
the busy set). -/
def checkMultipleDefs (g : MDGraph) (setL : List Nat) : List Report :=
  (mdefScanSet g setL [] []).2

/-- A report is correct: it lists exactly the symbol's exporter sites
with their weak flags, the symbol is multiply defined, its type is not
`C`, and some object of the scanned set exports it. -/
def ReportSound (g : MDGraph) (setL : List Nat) (rep : Report) : Prop :=
  rep.sites = g.expList.getD rep.sym [] ∧ 1 < rep.sites.length ∧
  g.symType.getD rep.sym ' ' ≠ 'C' ∧ ∃ f ∈ setL, rep.sym ∈ g.exps.getD f []

/-- Invariant of the scan: reported symbols are pairwise distinct and
sound, and every exporter of a reported symbol is busy-marked. -/
def MDInv (g : MDGraph) (setL busy : List Nat) (reps : List Report) : Prop :=
  (reps.map Report.sym).Nodup ∧ (∀ rep ∈ reps, ReportSound g setL rep) ∧
  (∀ rep ∈ reps, ∀ x ∈ (g.expList.getD rep.sym []).map Prod.fst, x ∈ busy)

theorem mdefScanObj_inv (g : MDGraph) (setL : List Nat) (f : Nat) (hfset : f ∈ setL) :
    ∀ slots busy reps, (∀ s ∈ slots, s ∈ g.exps.getD f []) → slots.Nodup →
    MDInv g setL busy reps → (∀ rep ∈ reps, rep.sym ∉ slots) →
    MDInv g setL (mdefScanObj g slots busy reps).1 (mdefScanObj g slots busy reps).2 ∧
    (∀ x ∈ busy, x ∈ (mdefScanObj g slots busy reps).1) := by
  intro slots
  induction slots with
  | nil =>
    intro busy reps _ _ hinv _
    simp only [mdefScanObj]
    exact ⟨hinv, fun x hx => hx⟩
  | cons s rest ih =>
    intro busy reps hslots hnd hinv hnew
    rw [mdefScanObj]
    by_cases hlen : 1 < (g.expList.getD s []).length
    · rw [if_pos hlen]
      by_cases hC : g.symType.getD s ' ' = 'C'
      · rw [if_pos hC]
        have hmono : ∀ x ∈ busy, x ∈ busy ++ (g.expList.getD s []).map Prod.fst :=
          fun x hx => List.mem_append_left _ hx
        have hres := ih (busy ++ (g.expList.getD s []).map Prod.fst) reps
          (fun t ht => hslots t (List.mem_cons_of_mem _ ht)) (List.Nodup.of_cons hnd)
          ⟨hinv.1, hinv.2.1, fun rep hrep x hx => hmono x (hinv.2.2 rep hrep x hx)⟩
          (fun rep hrep hmem => hnew rep hrep (List.mem_cons_of_mem _ hmem))
        exact ⟨hres.1, fun x hx => hres.2 x (hmono x hx)⟩
      · rw [if_neg hC]
        have hmono : ∀ x ∈ busy, x ∈ busy ++ (g.expList.getD s []).map Prod.fst :=
          fun x hx => List.mem_append_left _ hx
        have hndnew : ((reps ++ [(⟨s, g.expList.getD s []⟩ : Report)]).map Report.sym).Nodup := by
          rw [List.map_append]
          refine List.Nodup.append hinv.1 (by simp) ?_
          intro a ha hb
          simp only [List.map_cons, List.map_nil, List.mem_singleton] at hb
          subst hb
          rcases List.mem_map.mp ha with ⟨rep, hrep, hsym⟩
          exact hnew rep hrep (hsym ▸ List.mem_cons_self _ _)
        have hsound : ∀ rep ∈ reps ++ [(⟨s, g.expList.getD s []⟩ : Report)],
            ReportSound g setL rep := by
          intro rep hrep
          rcases List.mem_append.mp hrep with hrep | hrep
          · exact hinv.2.1 rep hrep
          · simp only [List.mem_singleton] at hrep
            subst hrep
            exact ⟨rfl, hlen, hC, f, hfset, hslots s (List.mem_cons_self _ _)⟩
        have hbusy : ∀ rep ∈ reps ++ [(⟨s, g.expList.getD s []⟩ : Report)],
            ∀ x ∈ (g.expList.getD rep.sym []).map Prod.fst,
              x ∈ busy ++ (g.expList.getD s []).map Prod.fst := by
          intro rep hrep x hx
          rcases List.mem_append.mp hrep with hrep | hrep
          · exact hmono x (hinv.2.2 rep hrep x hx)
          · simp only [List.mem_singleton] at hrep
            subst hrep
            exact List.mem_append_right _ hx
        have hres := ih (busy ++ (g.expList.getD s []).map Prod.fst)
          (reps ++ [⟨s, g.expList.getD s []⟩])
          (fun t ht => hslots t (List.mem_cons_of_mem _ ht)) (List.Nodup.of_cons hnd)
          ⟨hndnew, hsound, hbusy⟩ ?_
        · exact ⟨hres.1, fun x hx => hres.2 x (hmono x hx)⟩
        · intro rep hrep hmem
          rcases List.mem_append.mp hrep with hrep | hrep
          · exact hnew rep hrep (List.mem_cons_of_mem _ hmem)
          · simp only [List.mem_singleton] at hrep
            subst hrep
            exact (List.nodup_cons.mp hnd).1 hmem
    · rw [if_neg hlen]
      exact ih busy reps (fun t ht => hslots t (List.mem_cons_of_mem _ ht))
        (List.Nodup.of_cons hnd) hinv
        (fun rep hrep hmem => hnew rep hrep (List.mem_cons_of_mem _ hmem))

theorem mdefScanSet_inv (g : MDGraph) (setL : List Nat)
    (hWF : ∀ f ∈ setL, ∀ s ∈ g.exps.getD f [], f ∈ (g.expList.getD s []).map Prod.fst)
    (hND : ∀ f ∈ setL, (g.exps.getD f []).Nodup) :
    ∀ fs busy reps, (∀ f ∈ fs, f ∈ setL) → MDInv g setL busy reps →
    MDInv g setL (mdefScanSet g fs busy reps).1 (mdefScanSet g fs busy reps).2 := by
  intro fs
  induction fs with
  | nil => exact fun busy reps _ hinv => hinv
  | cons f fs ih =>
    intro busy reps hfs hinv
    rw [mdefScanSet]
    by_cases hb : f ∈ busy
    · rw [if_pos hb]
      exact ih busy reps (fun x hx => hfs x (List.mem_cons_of_mem _ hx)) hinv
    · rw [if_neg hb]
      have hfset : f ∈ setL := hfs f (List.mem_cons_self _ _)
      have hnew : ∀ rep ∈ reps, rep.sym ∉ g.exps.getD f [] := by
        intro rep hrep hmem
        exact hb (hinv.2.2 rep hrep f (hWF f hfset rep.sym hmem))
      have hobj := mdefScanObj_inv g setL f hfset (g.exps.getD f []) busy reps
        (fun s hs => hs) (hND f hfset) hinv hnew
      exact ih _ _ (fun x hx => hfs x (List.mem_cons_of_mem _ hx)) hobj.1

/-- C4 (amended): the multiple-definition scan reports only symbols that
are multiply defined, not of type `C`, and exported by an object of the
scanned set, each report listing all exporter sites with their weak
flags; each such symbol is reported at most once provided no object of
the set exports the same symbol in two slots.  (A multiply-defined
symbol whose in-set exporters were all busy-marked by an earlier report
is silently omitted — see the counterexample.) -/
theorem checkMultipleDefs_spec (g : MDGraph) (setL : List Nat)
    (hWF : ∀ f ∈ setL, ∀ s ∈ g.exps.getD f [], f ∈ (g.expList.getD s []).map Prod.fst)
    (hND : ∀ f ∈ setL, (g.exps.getD f []).Nodup) :
    ((checkMultipleDefs g setL).map Report.sym).Nodup ∧
    ∀ rep ∈ checkMultipleDefs g setL, ReportSound g setL rep := by
  have h := mdefScanSet_inv g setL hWF hND setL [] [] (fun f hf => hf)
    ⟨List.nodup_nil, by simp, by simp⟩
  exact ⟨h.1, h.2.1⟩

/-- The counterexample data for C4: objects `0`, `1`, `2`; object `0`
exports symbol `0`; object `1` exports symbols `0` and `1`; object `2`
exports symbol `1`; both symbols have type `T`. -/
def mdCexG : MDGraph :=
  { exps := [[0], [0, 1], [1]],
    expList := [[(0, false), (1, false)], [(1, false), (2, false)]],
    symType := ['T', 'T'] }

/-- Counterexample to C4 as stated: scanning the link set `[0, 1]` of
`mdCexG` reports only symbol `0`.  Symbol `1` is multiply defined, not
of type `C`, and exported by object `1` of the scanned set, yet it is
omitted: reporting symbol `0` busy-marked object `1`, which is then
skipped entirely. -/
theorem checkMultipleDefs_omission_cex :
    checkMultipleDefs mdCexG [0, 1] = [⟨0, [(0, false), (1, false)]⟩] ∧
    1 < (mdCexG.expList.getD 1 []).length ∧
    mdCexG.symType.getD 1 ' ' ≠ 'C' ∧
    (1 ∈ [0, 1] ∧ 1 ∈ mdCexG.exps.getD 1 []) ∧
    ∀ rep ∈ checkMultipleDefs mdCexG [0, 1], rep.sym ≠ 1 := by
  decide

/-- Witness for `checkMultipleDefs_spec` on `mdCexG` with the set
`[0, 1]`. -/
theorem checkMultipleDefs_spec_witness :
    ((checkMultipleDefs mdCexG [0, 1]).map Report.sym).Nodup ∧
    ∀ rep ∈ checkMultipleDefs mdCexG [0, 1], ReportSound mdCexG [0, 1] rep :=
  checkMultipleDefs_spec mdCexG [0, 1]
    (by decide)
    (by decide)

/-! ## Object lookup (`objcmp` and `fileListFind`, ldep.c lines 1072-1095, 1180-1234)

`fileListFind` splits the query name with `splitName`, builds a search
key (a stack `ObjFRec`), and binary-searches the sorted object index
with `objcmp`.  For a `lib[member]` query with non-empty `lib` the
library is looked up by exact name; for a `[member]` query — and for a
bare name, where `splitName` leaves `po == 0` — the key's `lib` field is
the `MATCH_ANY` sentinel, which `objcmp` treats as equal to any
library. -/

/-- The `lib` field of a search key or object: no containing library,
the `MATCH_ANY` sentinel, or a library identified by its name. -/
inductive LibRef where
  | noLib
  | matchAny
  | libName (name : List Char)
deriving DecidableEq

/-- The fields of `ObjFRec` that `objcmp` reads. -/
structure ObjKey where
  name : List Char
  lib : LibRef
deriving DecidableEq

/-- C `strcmp` as a three-way comparison on byte lists. -/
def cmpChars : List Char → List Char → Ordering
  | [], [] => Ordering.eq
  | [], _ :: _ => Ordering.lt
  | _ :: _, [] => Ordering.gt
  | a :: as, b :: bs =>
    if a.val < b.val then Ordering.lt
    else if b.val < a.val then Ordering.gt
    else cmpChars as bs

/-- `objcmp` (ldep.c lines 1072-1095): compare by object name; on equal
names the `MATCH_ANY` sentinel compares equal to anything, absence of a
library orders before any library, and two libraries compare by name. -/
def objcmp (a b : ObjKey) : Ordering :=
  match cmpChars a.name b.name with
  | Ordering.eq =>
    if a.lib = LibRef.matchAny ∨ b.lib = LibRef.matchAny then Ordering.eq
    else
      match a.lib, b.lib with
      | LibRef.libName la, LibRef.libName lb => cmpChars la lb
      | LibRef.libName _, LibRef.noLib => Ordering.gt
      | LibRef.noLib, LibRef.libName _ => Ordering.lt
      | _, _ => Ordering.eq
  | o => o

/-- The search key `fileListFind` builds from a raw query name, given
the names of the known libraries; `none` when the query is ill-formed or
names an unknown library (zero matches). -/
def fileListFindKey (rawName : List Char) (libs : List (List Char)) : Option ObjKey :=
  match splitName rawName with
  | SplitResult.err => none
  | SplitResult.plain n => some ⟨n, LibRef.matchAny⟩
  | SplitResult.inLib libName member =>
    if libName = [] then some ⟨member, LibRef.matchAny⟩
    else if libName ∈ libs then some ⟨member, LibRef.libName libName⟩
    else none

theorem getLast?_ne_of_not_mem {c : Char} {l : List Char} (h : c ∉ l) :
    l.getLast? ≠ some c := by
  induction l with
  | nil => simp
  | cons x xs ih =>
    cases xs with
    | nil =>
      intro hc
      apply h
      simp only [List.getLast?_singleton, Option.some_inj] at hc
      simp [hc]
    | cons y ys =>
      rw [List.getLast?_cons_cons]
      exact ih (fun hm => h (List.mem_cons_of_mem _ hm))

/-- C9: a bare object name with no brackets produces a search key whose
library field is the `MATCH_ANY` sentinel — exactly like the `[member]`
form — and such a key compares equal to an object precisely when the
object names match, regardless of the object's containing library. -/
theorem fileListFind_bare_matchAny (name : List Char) (libs : List (List Char))
    (hno : '[' ∉ name) (hnc : ']' ∉ name) :
    fileListFindKey name libs = some ⟨name, LibRef.matchAny⟩ ∧
    fileListFindKey ('[' :: (name ++ [']'])) libs = some ⟨name, LibRef.matchAny⟩ ∧
    ∀ objName objLib, (objcmp ⟨name, LibRef.matchAny⟩ ⟨objName, objLib⟩ = Ordering.eq ↔
      cmpChars name objName = Ordering.eq) := by
  refine ⟨?_, ?_, ?_⟩
  · rw [fileListFindKey, splitName, if_neg (getLast?_ne_of_not_mem hnc)]
  · have hlast : ('[' :: (name ++ [']'])).getLast? = some ']' := by
      rw [show '[' :: (name ++ [']']) = ('[' :: name) ++ [']'] by simp]
      exact List.getLast?_concat _
    have hidx : lastIdxOf '[' ('[' :: (name ++ [']'])) = some 0 := by
      have := lastIdxOf_split [] name hno
      simpa using this
    rw [fileListFindKey, splitName, if_pos hlast, hidx]
    simp
  · intro objName objLib
    rw [objcmp]
    cases h : cmpChars name objName with
    | eq => simp
    | lt => simp
    | gt => simp

/-- Witness for `fileListFind_bare_matchAny` at a concrete query. -/
theorem fileListFind_bare_matchAny_witness :
    fileListFindKey ['a', 'x'] [['l']] = some ⟨['a', 'x'], LibRef.matchAny⟩ ∧
    fileListFindKey ('[' :: (['a', 'x'] ++ [']'])) [['l']] =
      some ⟨['a', 'x'], LibRef.matchAny⟩ ∧
    ∀ objName objLib, (objcmp ⟨['a', 'x'], LibRef.matchAny⟩ ⟨objName, objLib⟩ = Ordering.eq ↔
      cmpChars ['a', 'x'] objName = Ordering.eq) :=
  fileListFind_bare_matchAny ['a', 'x'] [['l']] (by decide) (by decide)

/-! ## The object/symbol graph and its mutable state

Shared by the link engine (`linkObj` and the driver loop in `main`), the
traversal engine (`depwalk` and the work-list helpers) and the unlink
engine (`unlinkObj`).

Static data (fixed after ingest and fixup):
* `imps`: per object, the imported symbol ids in import-slot order;
* `exps`: per object, the exported symbol ids in export-slot order;
* `expHead`: per symbol, the head of its exporter chain (the *first*
  exporter), or `none` for a symbol defined nowhere.  After
  `gatherDanglingUndefs` such a symbol's exporter chain actually holds
  the `U*` sentinel pod; the pod belongs to the `UNDEFINED` link set
  (anchor never `nil`), has no imports and is skipped by
  `fileListFirst`, so the link engine never propagates into it and the
  traversal engine never reaches it — `none` models it exactly.

Mutable state:
* `anchor`: per object, its link set (`f->link.anchor`), `none` = unset;
* `impFrom`: per symbol, the importer chain as `(object, import slot)`
  pairs, head first (`sym->importedFrom` plus the import XRefs' packed
  `next` pointers);
* `appSet`, `optSet`: the two link sets' object chains
  (`linkSet->set` plus the objects' `link.next` pointers), head first;
* `work`: per object, the traversal scratch slot — `clear` (NULL),
  the reserved `busy` marker, or a pointer to the next work-list
  object. -/

/-- The two link sets real objects can join. -/
inductive LS where
  | app
  | opt
deriving DecidableEq

/-- A `work` scratch-slot value. -/
inductive WSlot where
  | clear
  | busy
  | ptr (o : Nat)
deriving DecidableEq

/-- The static part of the graph. -/
structure Graph where
  imps : List (List Nat)
  exps : List (List Nat)
  expHead : List (Option Nat)
deriving DecidableEq

/-- Number of (real) objects. -/
def Graph.n (g : Graph) : Nat := g.imps.length

/-- The mutable state. -/
structure MState where
  anchor : List (Option LS)
  impFrom : List (List (Nat × Nat))
  appSet : List Nat
  optSet : List Nat
  work : List WSlot
deriving DecidableEq

/-- Static well-formedness: every exporter-chain head is a real
object. -/
def graphWF (g : Graph) : Bool :=
  g.expHead.all (fun eh => eh.all (fun e => decide (e < g.n)))

theorem graphWF_expHead {g : Graph} (hwf : graphWF g = true) {s e : Nat}
    (h : g.expHead.getD s none = some e) : e < g.n := by
  rcases lt_or_le s g.expHead.length with hs | hs
  · have hmem : g.expHead.getD s none ∈ g.expHead := by
      rw [List.getD_eq_getElem _ _ hs]
      exact List.getElem_mem _
    rw [h] at hmem
    have := List.all_eq_true.mp hwf _ hmem
    simpa using this
  · rw [List.getD_eq_default _ _ hs] at h
    exact absurd h (by simp)

/-! ## The link engine (`linkObj`, ldep.c lines 608-649, and the driver
loop of `main`, lines 1537-1544)

`linkObj(f)` requires `f->link.anchor` to be set.  For each import XRef
of `f` in slot order it pushes the XRef onto the head of its symbol's
importer chain, then looks at the symbol's first exporter: if that
exporter's owner has no link set yet, the owner inherits `f`'s link set
and is linked recursively.  Finally `f` is pushed onto the head of its
link set's object chain.  (The entry assertion `f->link.anchor != 0` and
the re-lookup `tfind` assertion are sanity checks on data the callers
have already established; the `anchor = none` branches below mirror the
C control flow, which skips propagation when `f->link.anchor` is NULL.)

Recursion is bounded by a fuel argument; every recursive call anchors a
previously unanchored object first, so fuel `g.n` never runs out (proved
below). -/

/-- Push `f` onto the head of its link set's object chain
(`f->link.next = set; set = f`). -/
def pushSet (st : MState) (f : Nat) : MState :=
  match st.anchor.getD f none with
  | some LS.app => { st with appSet := f :: st.appSet }
  | some LS.opt => { st with optSet := f :: st.optSet }
  | none => st

/-- Push the import XRef `(f, slot)` for symbol `s` onto the head of
`s`'s importer chain (`xref_set_next(imp, importedFrom);
importedFrom = imp`). -/
def pushImporter (st : MState) (f slot s : Nat) : MState :=
  { st with impFrom := st.impFrom.set s ((f, slot) :: st.impFrom.getD s []) }

/-- Set object `e`'s link-set anchor to `v`
(`dep->link.anchor = f->link.anchor`). -/
def anchorSet (st : MState) (e : Nat) (v : LS) : MState :=
  { st with anchor := st.anchor.set e (some v) }

/-- One iteration of `linkObj`'s import loop: push the importer XRef,
then — if the symbol has a first exporter whose owner has no link set
yet — let the owner inherit `f`'s link set and link it recursively
(`lnk`).  A symbol without exporter only gets the importer push (plus
the optional undefined-symbol warning). -/
def linkImportOne (g : Graph) (lnk : MState → Nat → MState) (f slot s : Nat)
    (st : MState) : MState :=
  match g.expHead.getD s none with
  | none => pushImporter st f slot s
  | some e =>
    match (pushImporter st f slot s).anchor.getD f none with
    | none => pushImporter st f slot s
    | some v =>
      if (pushImporter st f slot s).anchor.getD e none = none then
        lnk (anchorSet (pushImporter st f slot s) e v) e
      else pushImporter st f slot s

/-- The import loop of `linkObj`: `lnk` is the recursive call (with one
less fuel), `f` the object being linked, the list holds the import-slot
symbols still to process, numbered from `slot`. -/
def linkImports (g : Graph) (lnk : MState → Nat → MState) (f : Nat) :
    Nat → List Nat → MState → MState
  | _, [], st => st
  | slot, s :: rest, st =>
    linkImports g lnk f (slot + 1) rest (linkImportOne g lnk f slot s st)

/-- `linkObj` with explicit fuel. -/
def linkObj (g : Graph) : Nat → MState → Nat → MState
  | 0, st, _ => st
  | fuel + 1, st, f =>
    pushSet (linkImports g (linkObj g fuel) f 0 (g.imps.getD f []) st) f

/-- One iteration of the driver loop of `main`: if object `f` has no
link set yet, seed it with the current seed set and link it. -/
def driverStep (g : Graph) (st : MState) (f : Nat) (seed : LS) : MState :=
  if st.anchor.getD f none = none then
    linkObj g g.n (anchorSet st f seed) f
  else st

/-- The driver loop of `main`: iterate the objects in ingest order; an
object with no link set yet is seeded with the current seed set and
linked; the seed switches to `Optional` right after the last object of
the first input batch (`lastAppObj`).  Returns the state and the final
seed. -/
def driverLoop (g : Graph) (lastApp : Option Nat) :
    List Nat → LS → MState → MState × LS
  | [], seed, st => (st, seed)
  | f :: fs, seed, st =>
    driverLoop g lastApp fs
      (if lastApp = some f then LS.opt else seed)
      (driverStep g st f seed)

/-- The state after ingest, before linking: nothing anchored, all
importer chains empty, both link sets empty, all work slots clear. -/
def initState (g : Graph) : MState :=
  { anchor := List.replicate g.n none,
    impFrom := List.replicate g.expHead.length [],
    appSet := [], optSet := [],
    work := List.replicate g.n WSlot.clear }

/-- Run the link-engine driver; `lastApp` is the ingest index of the
last object of the first (mandatory) input batch. -/
def linkDriver (g : Graph) (lastApp : Option Nat) : MState :=
  (driverLoop g lastApp (List.range g.n) LS.app (initState g)).1

/-- One import edge of the link graph: `a` imports a symbol whose first
exporter is `b`. -/
def linkStep (g : Graph) (a b : Nat) : Prop :=
  ∃ s ∈ g.imps.getD a [], g.expHead.getD s none = some b

/-- Reachability from the mandatory objects (ingest indices `≤ k`) by
repeatedly following each import's symbol's first exporter. -/
def MandReach (g : Graph) (k o : Nat) : Prop :=
  ∃ m, m ≤ k ∧ Relation.ReflTransGen (linkStep g) m o

/-! ### Invariants of the link engine -/

/-- Number of unanchored entries. -/
def countNone (l : List (Option LS)) : Nat :=
  l.countP (fun a => decide (a = none))

/-- All link-graph successors of `o` are anchored. -/
def DoneAt (g : Graph) (st : MState) (o : Nat) : Prop :=
  ∀ e, linkStep g o e → st.anchor.getD e none ≠ none

/-- Members of a link set's chain are anchored to that set. -/
def SetsOK (st : MState) : Prop :=
  (∀ x ∈ st.appSet, st.anchor.getD x none = some LS.app) ∧
  (∀ x ∈ st.optSet, st.anchor.getD x none = some LS.opt)

/-- An anchored object is on its link set's chain. -/
def CompleteAt (st : MState) (o : Nat) : Prop :=
  (st.anchor.getD o none = some LS.app → o ∈ st.appSet) ∧
  (st.anchor.getD o none = some LS.opt → o ∈ st.optSet)

theorem countNone_le_length (l : List (Option LS)) : countNone l ≤ l.length :=
  List.countP_le_length _

theorem countNone_set_some (l : List (Option LS)) (v : LS) :
    ∀ i, i < l.length → l.getD i none = none →
      countNone (l.set i (some v)) + 1 = countNone l := by
  induction l with
  | nil => intro i hi; simp at hi
  | cons x xs ih =>
    intro i hi hnone
    cases i with
    | zero =>
      simp only [List.getD_cons_zero] at hnone
      subst hnone
      simp [countNone, List.countP_cons]
    | succ j =>
      simp only [List.getD_cons_succ] at hnone
      have := ih j (by simpa using hi) hnone
      simp only [List.set_cons_succ, countNone, List.countP_cons] at *
      omega

theorem anchor_ne_none_mono {st st2 : MState}
    (hm : ∀ o w, st.anchor.getD o none = some w → st2.anchor.getD o none = some w)
    {o : Nat} (h : st.anchor.getD o none ≠ none) : st2.anchor.getD o none ≠ none := by
  cases ha : st.anchor.getD o none with
  | none => exact absurd ha h
  | some w => rw [hm o w ha]; simp

theorem doneAt_mono {g : Graph} {st st2 : MState}
    (hm : ∀ o w, st.anchor.getD o none = some w → st2.anchor.getD o none = some w)
    {o : Nat} (h : DoneAt g st o) : DoneAt g st2 o :=
  fun e he => anchor_ne_none_mono hm (h e he)

/-- Postcondition of a full `linkObj` call on `f` (anchored with value
`v`): anchors are only added, never changed; every newly anchored object
got value `v`, is link-reachable from `f`, and has all its successors
anchored; `f` has all its successors anchored; link-set chains only
grow, stay sound, and every object outside the exception set `X` ends up
on its chain. -/
structure LinkPost (g : Graph) (st st2 : MState) (f : Nat) (v : LS)
    (X : Nat → Prop) : Prop where
  len : st2.anchor.length = st.anchor.length
  mono : ∀ o w, st.anchor.getD o none = some w → st2.anchor.getD o none = some w
  cnt : countNone st2.anchor ≤ countNone st.anchor
  doneF : DoneAt g st2 f
  newNodes : ∀ o, st.anchor.getD o none = none → st2.anchor.getD o none ≠ none →
    st2.anchor.getD o none = some v ∧ Relation.ReflTransGen (linkStep g) f o ∧
      DoneAt g st2 o
  appMono : ∀ x ∈ st.appSet, x ∈ st2.appSet
  optMono : ∀ x ∈ st.optSet, x ∈ st2.optSet
  ok : SetsOK st2
  comp : ∀ o, ¬ X o → CompleteAt st2 o

/-- `lnk` behaves like `linkObj` with the given fuel: whenever fewer
than `fuel` objects are unanchored, a call on an anchored object
satisfies `LinkPost`. -/
def LinkSpec (g : Graph) (fuel : Nat) (lnk : MState → Nat → MState) : Prop :=
  ∀ st f v (X : Nat → Prop), st.anchor.length = g.n →
    st.anchor.getD f none = some v → countNone st.anchor < fuel → SetsOK st →
    (∀ o, ¬ X o → o ≠ f → CompleteAt st o) →
    LinkPost g st (lnk st f) f v X

/-- Postcondition of the import loop on the remaining slot symbols `l`:
like `LinkPost` but the exception `f` is still pending (`f` joins its
chain only in `pushSet` afterwards), and instead of `DoneAt f` we know
every processed slot's first exporter is anchored. -/
structure ImpPost (g : Graph) (st st2 : MState) (f : Nat) (v : LS)
    (X : Nat → Prop) (l : List Nat) : Prop where
  len : st2.anchor.length = st.anchor.length
  mono : ∀ o w, st.anchor.getD o none = some w → st2.anchor.getD o none = some w
  cnt : countNone st2.anchor ≤ countNone st.anchor
  targets : ∀ s ∈ l, ∀ e, g.expHead.getD s none = some e →
    st2.anchor.getD e none ≠ none
  newNodes : ∀ o, st.anchor.getD o none = none → st2.anchor.getD o none ≠ none →
    st2.anchor.getD o none = some v ∧ Relation.ReflTransGen (linkStep g) f o ∧
      DoneAt g st2 o
  appMono : ∀ x ∈ st.appSet, x ∈ st2.appSet
  optMono : ∀ x ∈ st.optSet, x ∈ st2.optSet
  ok : SetsOK st2
  comp : ∀ o, ¬ X o → o ≠ f → CompleteAt st2 o

theorem pushImporter_anchor (st : MState) (f slot s : Nat) :
    (pushImporter st f slot s).anchor = st.anchor := rfl

theorem pushImporter_appSet (st : MState) (f slot s : Nat) :
    (pushImporter st f slot s).appSet = st.appSet := rfl

theorem pushImporter_optSet (st : MState) (f slot s : Nat) :
    (pushImporter st f slot s).optSet = st.optSet := rfl

theorem anchorSet_push_anchor (st : MState) (f slot s e : Nat) (v : LS) :
    (anchorSet (pushImporter st f slot s) e v).anchor = st.anchor.set e (some v) := rfl

theorem anchorSet_push_appSet (st : MState) (f slot s e : Nat) (v : LS) :
    (anchorSet (pushImporter st f slot s) e v).appSet = st.appSet := rfl

theorem anchorSet_push_optSet (st : MState) (f slot s e : Nat) (v : LS) :
    (anchorSet (pushImporter st f slot s) e v).optSet = st.optSet := rfl

theorem linkImportOne_spec (g : Graph) (hwf : graphWF g = true) (fuel : Nat)
    (lnk : MState → Nat → MState) (hlnk : LinkSpec g fuel lnk) (f slot s : Nat)
    (v : LS) (X : Nat → Prop) (st : MState) (hs : s ∈ g.imps.getD f [])
    (hlen : st.anchor.length = g.n) (hf : st.anchor.getD f none = some v)
    (hcnt : countNone st.anchor < fuel + 1) (hok : SetsOK st)
    (hcomp : ∀ o, ¬ X o → o ≠ f → CompleteAt st o) :
    ImpPost g st (linkImportOne g lnk f slot s st) f v X [s] := by
  unfold linkImportOne
  cases hes : g.expHead.getD s none with
  | none =>
    exact
      { len := rfl
        mono := fun o w h => h
        cnt := le_refl _
        targets := by
          intro t ht e hte
          simp only [List.mem_singleton] at ht
          subst ht
          rw [hes] at hte
          exact absurd hte (by simp)
        newNodes := fun o h1 h2 => absurd h1 h2
        appMono := fun x hx => hx
        optMono := fun x hx => hx
        ok := hok
        comp := fun o hX hof => hcomp o hX hof }
  | some e =>
    rw [show (pushImporter st f slot s).anchor = st.anchor from rfl, hf]
    dsimp only
    have he : e < g.n := graphWF_expHead hwf hes
    by_cases hea : st.anchor.getD e none = none
    · rw [if_pos hea]
      have hlen2 : (anchorSet (pushImporter st f slot s) e v).anchor.length = g.n := by
        rw [anchorSet_push_anchor, List.length_set]
        exact hlen
      have hse : (anchorSet (pushImporter st f slot s) e v).anchor.getD e none = some v := by
        rw [anchorSet_push_anchor]
        exact getD_set_self _ _ _ _ (by rw [hlen]; exact he)
      have hcnt2 : countNone (anchorSet (pushImporter st f slot s) e v).anchor + 1 =
          countNone st.anchor := by
        rw [anchorSet_push_anchor]
        exact countNone_set_some _ _ _ (by rw [hlen]; exact he) hea
      have hmono1 : ∀ o w, st.anchor.getD o none = some w →
          (anchorSet (pushImporter st f slot s) e v).anchor.getD o none = some w := by
        intro o w h
        rw [anchorSet_push_anchor]
        have hoe : e ≠ o := by
          intro hoe
          rw [hoe, h] at hea
          exact absurd hea (by simp)
        rw [getD_set_ne _ _ _ _ _ hoe]
        exact h
      have hpost := hlnk (anchorSet (pushImporter st f slot s) e v)
        e v (fun o => X o ∨ o = f) hlen2 hse (by omega)
        ⟨by
          rw [anchorSet_push_appSet]
          exact fun x hx => hmono1 x LS.app (hok.1 x hx),
         by
          rw [anchorSet_push_optSet]
          exact fun x hx => hmono1 x LS.opt (hok.2 x hx)⟩
        (by
          intro o hXo hoe
          have hX1 : ¬ X o := fun h => hXo (Or.inl h)
          have hX2 : o ≠ f := fun h => hXo (Or.inr h)
          have hc := hcomp o hX1 hX2
          have hanc : (anchorSet (pushImporter st f slot s) e v).anchor.getD o none =
              st.anchor.getD o none := by
            rw [anchorSet_push_anchor]
            exact getD_set_ne _ _ _ _ _ (fun hc2 => hoe hc2.symm)
          constructor
          · intro h
            rw [hanc] at h
            rw [anchorSet_push_appSet]
            exact hc.1 h
          · intro h
            rw [hanc] at h
            rw [anchorSet_push_optSet]
            exact hc.2 h)
      have hstep : linkStep g f e := ⟨s, hs, hes⟩
      refine
        { len := ?_
          mono := fun o w h => hpost.mono o w (hmono1 o w h)
          cnt := ?_
          targets := ?_
          newNodes := ?_
          appMono := ?_
          optMono := ?_
          ok := hpost.ok
          comp := ?_ }
      · rw [hpost.len, anchorSet_push_anchor, List.length_set]
      · refine le_trans hpost.cnt ?_
        omega
      · intro t ht e2 hte
        simp only [List.mem_singleton] at ht
        subst ht
        rw [hes] at hte
        have he2 : e2 = e := by simpa using hte.symm
        subst he2
        rw [hpost.mono e2 v hse]
        simp
      · intro o h1 h2
        by_cases hoe : o = e
        · subst hoe
          exact ⟨hpost.mono o v hse, Relation.ReflTransGen.single hstep, hpost.doneF⟩
        · have h1e : (anchorSet (pushImporter st f slot s) e v).anchor.getD o none =
              none := by
            rw [anchorSet_push_anchor, getD_set_ne _ _ _ _ _ (fun hc => hoe hc.symm)]
            exact h1
          have hn := hpost.newNodes o h1e h2
          exact ⟨hn.1, Relation.ReflTransGen.head hstep hn.2.1, hn.2.2⟩
      · intro x hx
        refine hpost.appMono x ?_
        rw [anchorSet_push_appSet]
        exact hx
      · intro x hx
        refine hpost.optMono x ?_
        rw [anchorSet_push_optSet]
        exact hx
      · intro o hXo hof
        exact hpost.comp o (by
          intro hc
          rcases hc with hc | hc
          · exact hXo hc
          · exact hof hc)
    · rw [if_neg hea]
      exact
        { len := rfl
          mono := fun o w h => h
          cnt := le_refl _
          targets := by
            intro t ht e2 hte
            simp only [List.mem_singleton] at ht
            subst ht
            rw [hes] at hte
            have he2 : e2 = e := by simpa using hte.symm
            subst he2
            exact hea
          newNodes := fun o h1 h2 => absurd h1 h2
          appMono := fun x hx => hx
          optMono := fun x hx => hx
          ok := hok
          comp := fun o hX hof => hcomp o hX hof }

theorem linkImports_spec (g : Graph) (hwf : graphWF g = true) (fuel : Nat)
    (lnk : MState → Nat → MState) (hlnk : LinkSpec g fuel lnk) (f : Nat) (v : LS)
    (X : Nat → Prop) :
    ∀ l slot st, (∀ s ∈ l, s ∈ g.imps.getD f []) → st.anchor.length = g.n →
      st.anchor.getD f none = some v → countNone st.anchor < fuel + 1 →
      SetsOK st → (∀ o, ¬ X o → o ≠ f → CompleteAt st o) →
      ImpPost g st (linkImports g lnk f slot l st) f v X l := by
  intro l
  induction l with
  | nil =>
    intro slot st _ _ _ _ hok hcomp
    exact
      { len := rfl
        mono := fun o w h => h
        cnt := le_refl _
        targets := by simp
        newNodes := fun o h1 h2 => absurd h1 h2
        appMono := fun x hx => hx
        optMono := fun x hx => hx
        ok := hok
        comp := hcomp }
  | cons s rest ih =>
    intro slot st hl hlen hf hcnt hok hcomp
    rw [linkImports]
    have h1 : ImpPost g st (linkImportOne g lnk f slot s st) f v X [s] :=
      linkImportOne_spec g hwf fuel lnk hlnk f slot s v X st
        (hl s (List.mem_cons_self _ _)) hlen hf hcnt hok hcomp
    have h2 : ImpPost g (linkImportOne g lnk f slot s st)
        (linkImports g lnk f (slot + 1) rest (linkImportOne g lnk f slot s st))
        f v X rest :=
      ih (slot + 1) (linkImportOne g lnk f slot s st)
        (fun t ht => hl t (List.mem_cons_of_mem _ ht))
        (by rw [h1.len]; exact hlen)
        (h1.mono f v hf)
        (lt_of_le_of_lt h1.cnt hcnt)
        h1.ok h1.comp
    exact
      { len := by rw [h2.len, h1.len]
        mono := fun o w h => h2.mono o w (h1.mono o w h)
        cnt := le_trans h2.cnt h1.cnt
        targets := by
          intro t ht e hte
          rcases List.mem_cons.mp ht with ht | ht
          · subst ht
            exact anchor_ne_none_mono h2.mono (h1.targets t (List.mem_singleton.mpr rfl) e hte)
          · exact h2.targets t ht e hte
        newNodes := by
          intro o hn1 hn2
          by_cases hmid : (linkImportOne g lnk f slot s st).anchor.getD o none = none
          · exact h2.newNodes o hmid hn2
          · have hn := h1.newNodes o hn1 hmid
            exact ⟨h2.mono o v hn.1, hn.2.1, doneAt_mono h2.mono hn.2.2⟩
        appMono := fun x hx => h2.appMono x (h1.appMono x hx)
        optMono := fun x hx => h2.optMono x (h1.optMono x hx)
        ok := h2.ok
        comp := h2.comp }

theorem pushSet_anchor (st : MState) (f : Nat) : (pushSet st f).anchor = st.anchor := by
  unfold pushSet
  cases h : st.anchor.getD f none with
  | none => rfl
  | some w => cases w <;> rfl

theorem pushSet_appSet_sub (st : MState) (f : Nat) :
    ∀ x ∈ st.appSet, x ∈ (pushSet st f).appSet := by
  unfold pushSet
  cases h : st.anchor.getD f none with
  | none => exact fun x hx => hx
  | some w =>
    cases w with
    | app => exact fun x hx => List.mem_cons_of_mem _ hx
    | opt => exact fun x hx => hx

theorem pushSet_optSet_sub (st : MState) (f : Nat) :
    ∀ x ∈ st.optSet, x ∈ (pushSet st f).optSet := by
  unfold pushSet
  cases h : st.anchor.getD f none with
  | none => exact fun x hx => hx
  | some w =>
    cases w with
    | app => exact fun x hx => hx
    | opt => exact fun x hx => List.mem_cons_of_mem _ hx

theorem pushSet_mem_app (st : MState) (f : Nat)
    (h : st.anchor.getD f none = some LS.app) : f ∈ (pushSet st f).appSet := by
  unfold pushSet
  rw [h]
  exact List.mem_cons_self _ _

theorem pushSet_mem_opt (st : MState) (f : Nat)
    (h : st.anchor.getD f none = some LS.opt) : f ∈ (pushSet st f).optSet := by
  unfold pushSet
  rw [h]
  exact List.mem_cons_self _ _

theorem pushSet_appSet_cases (st : MState) (f : Nat) :
    ∀ x ∈ (pushSet st f).appSet, x = f ∨ x ∈ st.appSet := by
  unfold pushSet
  cases h : st.anchor.getD f none with
  | none => exact fun x hx => Or.inr hx
  | some w =>
    cases w with
    | app =>
      intro x hx
      rcases List.mem_cons.mp hx with hx | hx
      · exact Or.inl hx
      · exact Or.inr hx
    | opt => exact fun x hx => Or.inr hx

theorem pushSet_ok (st : MState) (f : Nat) (hok : SetsOK st) : SetsOK (pushSet st f) := by
  unfold pushSet
  cases h : st.anchor.getD f none with
  | none => exact hok
  | some w =>
    cases w with
    | app =>
      constructor
      · intro x hx
        rcases List.mem_cons.mp hx with hx | hx
        · subst hx
          exact h
        · exact hok.1 x hx
      · exact hok.2
    | opt =>
      constructor
      · exact hok.1
      · intro x hx
        rcases List.mem_cons.mp hx with hx | hx
        · subst hx
          exact h
        · exact hok.2 x hx

theorem pushSet_complete_pres (st : MState) (f o : Nat) (ho : CompleteAt st o) :
    CompleteAt (pushSet st f) o := by
  constructor
  · intro h
    rw [pushSet_anchor] at h
    exact pushSet_appSet_sub _ _ o (ho.1 h)
  · intro h
    rw [pushSet_anchor] at h
    exact pushSet_optSet_sub _ _ o (ho.2 h)

theorem pushSet_complete_self (st : MState) (f : Nat) (v : LS)
    (hf : st.anchor.getD f none = some v) : CompleteAt (pushSet st f) f := by
  cases v with
  | app =>
    constructor
    · intro _
      exact pushSet_mem_app _ _ hf
    · intro h
      rw [pushSet_anchor, hf] at h
      exact absurd h (by simp)
  | opt =>
    constructor
    · intro h
      rw [pushSet_anchor, hf] at h
      exact absurd h (by simp)
    · intro _
      exact pushSet_mem_opt _ _ hf

/-- `linkObj` with any sufficient fuel satisfies the link
postcondition. -/
theorem linkObj_spec (g : Graph) (hwf : graphWF g = true) :
    ∀ fuel, LinkSpec g fuel (linkObj g fuel) := by
  intro fuel
  induction fuel with
  | zero =>
    intro st f v X _ _ hcnt
    exact absurd hcnt (Nat.not_lt_zero _)
  | succ fuel ih =>
    intro st f v X hlen hf hcnt hok hcomp
    rw [show linkObj g (fuel + 1) st f =
        pushSet (linkImports g (linkObj g fuel) f 0 (g.imps.getD f []) st) f from rfl]
    have h1 : ImpPost g st (linkImports g (linkObj g fuel) f 0 (g.imps.getD f []) st)
        f v X (g.imps.getD f []) :=
      linkImports_spec g hwf fuel (linkObj g fuel) ih f v X (g.imps.getD f []) 0 st
        (fun s hs => hs) hlen hf hcnt hok hcomp
    have hf2 : (linkImports g (linkObj g fuel) f 0 (g.imps.getD f []) st).anchor.getD
        f none = some v := h1.mono f v hf
    refine
      { len := by rw [pushSet_anchor, h1.len]
        mono := by
          intro o w h
          rw [pushSet_anchor]
          exact h1.mono o w h
        cnt := by
          rw [pushSet_anchor]
          exact h1.cnt
        doneF := ?_
        newNodes := ?_
        appMono := fun x hx => pushSet_appSet_sub _ _ x (h1.appMono x hx)
        optMono := fun x hx => pushSet_optSet_sub _ _ x (h1.optMono x hx)
        ok := ?_
        comp := ?_ }
    · intro e he
      rcases he with ⟨s, hsmem, hshead⟩
      rw [pushSet_anchor]
      exact h1.targets s hsmem e hshead
    · intro o hn1 hn2
      rw [pushSet_anchor] at hn2 ⊢
      have hn := h1.newNodes o hn1 hn2
      refine ⟨hn.1, hn.2.1, ?_⟩
      intro e he
      rw [pushSet_anchor]
      exact hn.2.2 e he
    · exact pushSet_ok _ _ h1.ok
    · intro o hXo
      by_cases hof : o = f
      · subst hof
        exact pushSet_complete_self _ _ v hf2
      · exact pushSet_complete_pres _ _ _ (h1.comp o hXo hof)

/-! ### The driver loop -/

theorem anchorSet_anchor (st : MState) (e : Nat) (v : LS) :
    (anchorSet st e v).anchor = st.anchor.set e (some v) := rfl

theorem anchorSet_appSet (st : MState) (e : Nat) (v : LS) :
    (anchorSet st e v).appSet = st.appSet := rfl

theorem anchorSet_optSet (st : MState) (e : Nat) (v : LS) :
    (anchorSet st e v).optSet = st.optSet := rfl

theorem getD_replicate_self {α : Type} (a : α) : ∀ n i,
    (List.replicate n a).getD i a = a := by
  intro n
  induction n with
  | zero => intro i; cases i <;> rfl
  | succ m ih =>
    intro i
    cases i with
    | zero => rfl
    | succ j => exact ih j

/-- No object is anchored to `Optional` (holds throughout the mandatory
phase of the driver). -/
def NoOpt (st : MState) : Prop := ∀ o, st.anchor.getD o none ≠ some LS.opt

/-- The anchored objects are closed under link-graph edges. -/
def Closed (g : Graph) (st : MState) : Prop :=
  ∀ o, st.anchor.getD o none ≠ none → DoneAt g st o

/-- Every object anchored to `Application` is link-reachable from a
mandatory object. -/
def SoundApp (g : Graph) (k : Nat) (st : MState) : Prop :=
  ∀ o, st.anchor.getD o none = some LS.app → MandReach g k o

theorem driverStep_spec (g : Graph) (hwf : graphWF g = true) (st : MState) (f : Nat)
    (sd : LS) (hlen : st.anchor.length = g.n) (hfn : f < g.n) (hok : SetsOK st)
    (hcomp : ∀ o, CompleteAt st o) (hcl : Closed g st) :
    (driverStep g st f sd).anchor.length = g.n ∧
    (∀ o w, st.anchor.getD o none = some w →
      (driverStep g st f sd).anchor.getD o none = some w) ∧
    SetsOK (driverStep g st f sd) ∧ (∀ o, CompleteAt (driverStep g st f sd) o) ∧
    Closed g (driverStep g st f sd) ∧
    (driverStep g st f sd).anchor.getD f none ≠ none ∧
    (∀ o, st.anchor.getD o none = none →
      (driverStep g st f sd).anchor.getD o none ≠ none →
      (driverStep g st f sd).anchor.getD o none = some sd ∧
        (o = f ∨ Relation.ReflTransGen (linkStep g) f o)) := by
  unfold driverStep
  by_cases ha : st.anchor.getD f none = none
  · rw [if_pos ha]
    have hlen1 : (anchorSet st f sd).anchor.length = g.n := by
      rw [anchorSet_anchor, List.length_set]
      exact hlen
    have hse : (anchorSet st f sd).anchor.getD f none = some sd := by
      rw [anchorSet_anchor]
      exact getD_set_self _ _ _ _ (by rw [hlen]; exact hfn)
    have hcnt1 : countNone (anchorSet st f sd).anchor + 1 = countNone st.anchor := by
      rw [anchorSet_anchor]
      exact countNone_set_some _ _ _ (by rw [hlen]; exact hfn) ha
    have hcnt2 : countNone (anchorSet st f sd).anchor < g.n := by
      have h1 : countNone st.anchor ≤ g.n := by
        rw [← hlen]
        exact countNone_le_length _
      omega
    have hmono1 : ∀ o w, st.anchor.getD o none = some w →
        (anchorSet st f sd).anchor.getD o none = some w := by
      intro o w h
      rw [anchorSet_anchor]
      have hfo : f ≠ o := by
        intro hc
        rw [hc, h] at ha
        exact absurd ha (by simp)
      rw [getD_set_ne _ _ _ _ _ hfo]
      exact h
    have hok1 : SetsOK (anchorSet st f sd) := by
      constructor
      · rw [anchorSet_appSet]
        exact fun x hx => hmono1 x LS.app (hok.1 x hx)
      · rw [anchorSet_optSet]
        exact fun x hx => hmono1 x LS.opt (hok.2 x hx)
    have hcomp1 : ∀ o, ¬ (fun _ : Nat => False) o → o ≠ f →
        CompleteAt (anchorSet st f sd) o := by
      intro o _ hof
      have hc := hcomp o
      have hanc : (anchorSet st f sd).anchor.getD o none = st.anchor.getD o none := by
        rw [anchorSet_anchor]
        exact getD_set_ne _ _ _ _ _ (fun hc2 => hof hc2.symm)
      constructor
      · intro h
        rw [hanc] at h
        rw [anchorSet_appSet]
        exact hc.1 h
      · intro h
        rw [hanc] at h
        rw [anchorSet_optSet]
        exact hc.2 h
    have hpost := linkObj_spec g hwf g.n (anchorSet st f sd) f sd (fun _ => False)
      hlen1 hse hcnt2 hok1 hcomp1
    have hmono : ∀ o w, st.anchor.getD o none = some w →
        (linkObj g g.n (anchorSet st f sd) f).anchor.getD o none = some w :=
      fun o w h => hpost.mono o w (hmono1 o w h)
    refine ⟨by rw [hpost.len]; exact hlen1, hmono, hpost.ok,
      fun o => hpost.comp o (by simp), ?_, ?_, ?_⟩
    · intro o ho2
      by_cases host : st.anchor.getD o none = none
      · by_cases hof : o = f
        · subst hof
          exact hpost.doneF
        · have hoa : (anchorSet st f sd).anchor.getD o none = none := by
            rw [anchorSet_anchor, getD_set_ne _ _ _ _ _ (fun hc => hof hc.symm)]
            exact host
          exact (hpost.newNodes o hoa ho2).2.2
      · cases hsw : st.anchor.getD o none with
        | none => exact absurd hsw host
        | some w => exact doneAt_mono hmono (hcl o host)
    · rw [hpost.mono f sd hse]
      simp
    · intro o h1 h2
      by_cases hof : o = f
      · subst hof
        exact ⟨hpost.mono o sd hse, Or.inl rfl⟩
      · have hoa : (anchorSet st f sd).anchor.getD o none = none := by
          rw [anchorSet_anchor, getD_set_ne _ _ _ _ _ (fun hc => hof hc.symm)]
          exact h1
        have hn := hpost.newNodes o hoa h2
        exact ⟨hn.1, Or.inr hn.2.1⟩
  · rw [if_neg ha]
    exact ⟨hlen, fun o w h => h, hok, hcomp, hcl, ha, fun o h1 h2 => absurd h1 h2⟩

/-- Invariant holding throughout the mandatory (first-batch) phase of
the driver: nothing is anchored to `Optional` yet, the anchored region
is closed under link edges, and every `Application` anchor is
mandatory-reachable. -/
structure Phase1Inv (g : Graph) (k : Nat) (st : MState) : Prop where
  len : st.anchor.length = g.n
  ok : SetsOK st
  comp : ∀ o, CompleteAt st o
  closed : Closed g st
  noopt : NoOpt st
  sound : SoundApp g k st

/-- Invariant of the optional phase: as `Phase1Inv` but `Optional`
anchors are now allowed. -/
structure Phase2Inv (g : Graph) (k : Nat) (st : MState) : Prop where
  len : st.anchor.length = g.n
  ok : SetsOK st
  comp : ∀ o, CompleteAt st o
  closed : Closed g st
  sound : SoundApp g k st

theorem driverLoop_phase1 (g : Graph) (hwf : graphWF g = true) (k : Nat) (hk : k < g.n) :
    ∀ rem j st, j + rem = k + 1 → j ≤ k → Phase1Inv g k st →
      (∀ m, m ≤ k → m < j → st.anchor.getD m none = some LS.app) →
      Phase1Inv g k (driverLoop g (some k) (List.range' j rem) LS.app st).1 ∧
      (∀ m, m ≤ k →
        (driverLoop g (some k) (List.range' j rem) LS.app st).1.anchor.getD m none =
          some LS.app) ∧
      (driverLoop g (some k) (List.range' j rem) LS.app st).2 = LS.opt := by
  intro rem
  induction rem with
  | zero =>
    intro j st hjrem hj _ _
    omega
  | succ rem ih =>
    intro j st hjrem hj hinv hproc
    have hjn : j < g.n := lt_of_le_of_lt hj hk
    have hstep := driverStep_spec g hwf st j LS.app hinv.len hjn hinv.ok hinv.comp
      hinv.closed
    have hinv2 : Phase1Inv g k (driverStep g st j LS.app) :=
      { len := hstep.1
        ok := hstep.2.2.1
        comp := hstep.2.2.2.1
        closed := hstep.2.2.2.2.1
        noopt := by
          intro o ho
          cases hsw : st.anchor.getD o none with
          | some w =>
            have := hstep.2.1 o w hsw
            rw [this] at ho
            have hw : w = LS.opt := by
              simpa using ho
            subst hw
            exact hinv.noopt o hsw
          | none =>
            have hnew := hstep.2.2.2.2.2.2 o hsw (by rw [ho]; simp)
            rw [hnew.1] at ho
            exact absurd ho (by simp)
        sound := by
          intro o ho
          cases hsw : st.anchor.getD o none with
          | some w =>
            have := hstep.2.1 o w hsw
            rw [this] at ho
            have hw : w = LS.app := by simpa using ho
            subst hw
            exact hinv.sound o hsw
          | none =>
            have hnew := hstep.2.2.2.2.2.2 o hsw (by rw [ho]; simp)
            rcases hnew.2 with hof | hreach
            · subst hof
              exact ⟨o, hj, Relation.ReflTransGen.refl⟩
            · exact ⟨j, hj, hreach⟩ }
    have hproc2 : ∀ m, m ≤ k → m < j + 1 →
        (driverStep g st j LS.app).anchor.getD m none = some LS.app := by
      intro m hm hmj
      rcases Nat.lt_succ_iff_lt_or_eq.mp hmj with hmj | hmj
      · exact hstep.2.1 m LS.app (hproc m hm hmj)
      · subst hmj
        have hne := hstep.2.2.2.2.2.1
        cases hsw : (driverStep g st m LS.app).anchor.getD m none with
        | none => exact absurd hsw hne
        | some w =>
          cases w with
          | app => rfl
          | opt => exact absurd hsw (hinv2.noopt m)
    rcases Nat.lt_or_ge j k with hjk | hjk
    · have hseed : (if (some k : Option Nat) = some j then LS.opt else LS.app) =
          LS.app := by
        rw [if_neg]
        intro hc
        simp only [Option.some_inj] at hc
        omega
      rw [show List.range' j (rem + 1) = j :: List.range' (j + 1) rem from rfl,
        driverLoop, hseed]
      exact ih (j + 1) (driverStep g st j LS.app) (by omega) hjk hinv2 hproc2
    · have hjk2 : j = k := le_antisymm hj hjk
      subst hjk2
      have hrem : rem = 0 := by omega
      subst hrem
      rw [show List.range' j 1 = [j] from rfl, driverLoop, driverLoop]
      refine ⟨hinv2, ?_, ?_⟩
      · intro m hm
        exact hproc2 m hm (by omega)
      · rw [if_pos rfl]

theorem driverLoop_phase2 (g : Graph) (hwf : graphWF g = true) (k : Nat) :
    ∀ l st, (∀ f ∈ l, f < g.n) → Phase2Inv g k st →
      Phase2Inv g k (driverLoop g (some k) l LS.opt st).1 ∧
      (∀ o w, st.anchor.getD o none = some w →
        (driverLoop g (some k) l LS.opt st).1.anchor.getD o none = some w) ∧
      (∀ f ∈ l, (driverLoop g (some k) l LS.opt st).1.anchor.getD f none ≠ none) := by
  intro l
  induction l with
  | nil =>
    intro st _ hinv
    exact ⟨hinv, fun o w h => h, by simp⟩
  | cons f fs ih =>
    intro st hl hinv
    have hfn : f < g.n := hl f (List.mem_cons_self _ _)
    have hstep := driverStep_spec g hwf st f LS.opt hinv.len hfn hinv.ok hinv.comp
      hinv.closed
    have hinv2 : Phase2Inv g k (driverStep g st f LS.opt) :=
      { len := hstep.1
        ok := hstep.2.2.1
        comp := hstep.2.2.2.1
        closed := hstep.2.2.2.2.1
        sound := by
          intro o ho
          cases hsw : st.anchor.getD o none with
          | some w =>
            have := hstep.2.1 o w hsw
            rw [this] at ho
            have hw : w = LS.app := by simpa using ho
            subst hw
            exact hinv.sound o hsw
          | none =>
            have hnew := hstep.2.2.2.2.2.2 o hsw (by rw [ho]; simp)
            rw [hnew.1] at ho
            exact absurd ho (by simp) }
    have hrest := ih (driverStep g st f LS.opt)
      (fun x hx => hl x (List.mem_cons_of_mem _ hx)) hinv2
    have hseed : (if (some k : Option Nat) = some f then LS.opt else LS.opt) = LS.opt := by
      split <;> rfl
    rw [driverLoop, hseed]
    refine ⟨hrest.1, ?_, ?_⟩
    · intro o w h
      exact hrest.2.1 o w (hstep.2.1 o w h)
    · intro x hx
      rcases List.mem_cons.mp hx with hx | hx
      · subst hx
        exact anchor_ne_none_mono hrest.2.1 hstep.2.2.2.2.2.1
      · exact hrest.2.2 x hx

theorem driverLoop_append (g : Graph) (la : Option Nat) :
    ∀ l1 l2 seed st, driverLoop g la (l1 ++ l2) seed st =
      driverLoop g la l2 (driverLoop g la l1 seed st).2 (driverLoop g la l1 seed st).1 := by
  intro l1
  induction l1 with
  | nil => intro l2 seed st; rfl
  | cons f fs ih =>
    intro l2 seed st
    rw [List.cons_append, driverLoop, driverLoop, ih]

theorem range'_append_own : ∀ a s b : Nat,
    List.range' s a ++ List.range' (s + a) b = List.range' s (a + b) := by
  intro a
  induction a with
  | zero => intro s b; simp
  | succ a ih =>
    intro s b
    rw [show List.range' s (a + 1) = s :: List.range' (s + 1) a from rfl,
      List.cons_append, show s + (a + 1) = (s + 1) + a from by omega, ih,
      show (a + 1) + b = (a + b) + 1 from by omega]
    rfl

theorem initState_anchor_getD (g : Graph) (o : Nat) :
    (initState g).anchor.getD o none = none :=
  getD_replicate_self none g.n o

theorem initState_phase1 (g : Graph) (k : Nat) : Phase1Inv g k (initState g) :=
  { len := List.length_replicate _ _
    ok := ⟨fun x hx => absurd hx (List.not_mem_nil x),
           fun x hx => absurd hx (List.not_mem_nil x)⟩
    comp := fun o =>
      ⟨by
        intro h
        rw [initState_anchor_getD] at h
        exact absurd h (by simp),
       by
        intro h
        rw [initState_anchor_getD] at h
        exact absurd h (by simp)⟩
    closed := fun o h => absurd (initState_anchor_getD g o) h
    noopt := fun o => by
      rw [initState_anchor_getD]
      simp
    sound := fun o h => by
      rw [initState_anchor_getD] at h
      exact absurd h (by simp) }

/-- C1: after the link-engine driver has run (iterating the objects in
ingest order, seeding the first batch — ingest indices `≤ k` — into
`Application` and the rest into `Optional`), a real object is on the
`Application` link set's chain exactly when it is reachable from a
mandatory object by repeatedly following each import's symbol's first
exporter, and on the `Optional` chain exactly otherwise — in
particular, every remaining reachable-from-optional-seed object is in
`Optional`. -/
theorem linkDriver_app_opt (g : Graph) (hwf : graphWF g = true) (k : Nat)
    (hk : k < g.n) (o : Nat) (ho : o < g.n) :
    (o ∈ (linkDriver g (some k)).appSet ↔ MandReach g k o) ∧
    (o ∈ (linkDriver g (some k)).optSet ↔ ¬ MandReach g k o) := by
  have hsplit : List.range g.n =
      List.range' 0 (k + 1) ++ List.range' (k + 1) (g.n - (k + 1)) := by
    have h1 := range'_append_own (k + 1) 0 (g.n - (k + 1))
    rw [show 0 + (k + 1) = k + 1 from by omega,
      show (k + 1) + (g.n - (k + 1)) = g.n from by omega] at h1
    rw [List.range_eq_range', ← h1]
  have hp1 := driverLoop_phase1 g hwf k hk (k + 1) 0 (initState g) (by omega) (by omega)
    (initState_phase1 g k) (by intro m hm hm0; omega)
  have hreachapp : ∀ o2, MandReach g k o2 →
      (driverLoop g (some k) (List.range' 0 (k + 1)) LS.app (initState g)).1.anchor.getD
        o2 none = some LS.app := by
    rintro o2 ⟨m, hm, hreach⟩
    induction hreach with
    | refl => exact hp1.2.1 m hm
    | tail hab hbc ih =>
      have hbne := ih
      have hdone := hp1.1.closed _ (by rw [hbne]; simp)
      have hcne := hdone _ hbc
      cases hcv : (driverLoop g (some k) (List.range' 0 (k + 1)) LS.app
          (initState g)).1.anchor.getD _ none with
      | none => exact absurd hcv hcne
      | some w =>
        cases w with
        | app => rfl
        | opt => exact absurd hcv (hp1.1.noopt _)
  have hp2pre : Phase2Inv g k
      (driverLoop g (some k) (List.range' 0 (k + 1)) LS.app (initState g)).1 :=
    { len := hp1.1.len
      ok := hp1.1.ok
      comp := hp1.1.comp
      closed := hp1.1.closed
      sound := hp1.1.sound }
  have hp2 := driverLoop_phase2 g hwf k (List.range' (k + 1) (g.n - (k + 1)))
    (driverLoop g (some k) (List.range' 0 (k + 1)) LS.app (initState g)).1
    (by
      intro f hf
      have := List.mem_range'_1.mp hf
      omega)
    hp2pre
  have hfin : linkDriver g (some k) =
      (driverLoop g (some k) (List.range' (k + 1) (g.n - (k + 1))) LS.opt
        (driverLoop g (some k) (List.range' 0 (k + 1)) LS.app (initState g)).1).1 := by
    rw [linkDriver, hsplit, driverLoop_append, hp1.2.2]
  have hA : ∀ o2, MandReach g k o2 →
      (linkDriver g (some k)).anchor.getD o2 none = some LS.app := by
    intro o2 h
    rw [hfin]
    exact hp2.2.1 o2 LS.app (hreachapp o2 h)
  have hok : SetsOK (linkDriver g (some k)) := by
    rw [hfin]
    exact hp2.1.ok
  have hB : SoundApp g k (linkDriver g (some k)) := by
    rw [hfin]
    exact hp2.1.sound
  have hC : ∀ o2, CompleteAt (linkDriver g (some k)) o2 := by
    rw [hfin]
    exact hp2.1.comp
  constructor
  · constructor
    · intro hmem
      exact hB o (hok.1 o hmem)
    · intro hre
      exact (hC o).1 (hA o hre)
  · constructor
    · intro hmem hre
      have h1 := hok.2 o hmem
      have h2 := hA o hre
      rw [h1] at h2
      exact absurd h2 (by simp)
    · intro hre
      have hne : (linkDriver g (some k)).anchor.getD o none ≠ none := by
        by_cases hox : o ≤ k
        · exact absurd ⟨o, hox, Relation.ReflTransGen.refl⟩ hre
        · rw [hfin]
          exact hp2.2.2 o (List.mem_range'_1.mpr ⟨by omega, by omega⟩)
      cases hv : (linkDriver g (some k)).anchor.getD o none with
      | none => exact absurd hv hne
      | some w =>
        cases w with
        | app => exact absurd (hB o hv) hre
        | opt => exact (hC o).2 hv

/-- The witness graph for the link driver: object 0 (mandatory) imports
symbol 0, whose first exporter is object 1; object 2 is isolated. -/
def linkCexG : Graph :=
  { imps := [[0], [], []], exps := [[], [0], []], expHead := [some 1] }

/-- Witness for `linkDriver_app_opt`: in `linkCexG` with first batch
`{0}`, object 1 is pulled into `Application` and object 2 stays
`Optional`. -/
theorem linkDriver_app_opt_witness :
    (graphWF linkCexG = true ∧ 0 < linkCexG.n ∧ 1 < linkCexG.n ∧ 2 < linkCexG.n) ∧
    ((1 ∈ (linkDriver linkCexG (some 0)).appSet ↔ MandReach linkCexG 0 1) ∧
      (1 ∈ (linkDriver linkCexG (some 0)).optSet ↔ ¬ MandReach linkCexG 0 1)) ∧
    ((2 ∈ (linkDriver linkCexG (some 0)).appSet ↔ MandReach linkCexG 0 2) ∧
      (2 ∈ (linkDriver linkCexG (some 0)).optSet ↔ ¬ MandReach linkCexG 0 2)) :=
  ⟨⟨by decide, by decide, by decide, by decide⟩,
   linkDriver_app_opt linkCexG (by decide) 0 (by decide) 1 (by decide),
   linkDriver_app_opt linkCexG (by decide) 0 (by decide) 2 (by decide)⟩

/-! ## The traversal engine (`depwalk`, `depwalk_rec`, `workListIterate`,
`workListRelease`, `depwalkListRelease`; ldep.c lines 869-995, NWORK
variant)

`depwalk_rec(f, depth)` expands node `f`: in exports mode it follows,
for each export slot's symbol, the whole importer chain; in imports mode
it follows, for each import slot's symbol, only the first exporter.  For
each cross-reference it asserts `ref->obj != f` (modelled as `none` =
abort), and visits `ref->obj` when its `work` slot is NULL: the object is
threaded into the intrusive work chain right after `f`
(`ref->obj->work = f->work; f->work = ref->obj`) and expanded
recursively; in direct-action mode the two slots are then restored
(`f->work = ref->obj->work; ref->obj->work = 0`), in list-building mode
the chain is kept.  `depwalk` asserts the start object's `work` slot is
NULL, sets it to the reserved `BUSY` marker, runs the recursion, and in
direct mode clears the start slot again.  `workListRelease` walks the
chain clearing every slot until it reaches the `BUSY` sentinel value.
Recursion depth is again fuel-bounded; the fuel `g.n` used by `depwalk`
is shown sufficient.  (`checkCircWorkList` is a non-mutating self-check
assertion on the freshly extended chain and is elided, like the other
redundant sanity assertions.) -/

/-- The cross-references followed from one slot symbol `s`: in exports
mode every entry of `s`'s importer chain, in imports mode the first
exporter only (`use only the first definition`). -/
def refsFor (g : Graph) (st : MState) (doExp : Bool) (s : Nat) : List Nat :=
  if doExp then (st.impFrom.getD s []).map Prod.fst
  else (g.expHead.getD s none).toList

/-- Thread `r` into the work chain right after `f`
(`ref->obj->work = f->work; f->work = ref->obj`). -/
def workInsert (st : MState) (f r : Nat) : MState :=
  { st with work := (st.work.set r (st.work.getD f WSlot.clear)).set f (WSlot.ptr r) }

/-- Undo the threading in direct-action mode
(`f->work = ref->obj->work; ref->obj->work = 0`). -/
def workRestore (st : MState) (f r : Nat) : MState :=
  { st with work := (st.work.set f (st.work.getD r WSlot.clear)).set r WSlot.clear }

/-- Set the start object's `work` slot to the `BUSY` marker. -/
def workBusy (st : MState) (f : Nat) : MState :=
  { st with work := st.work.set f WSlot.busy }

/-- Clear one `work` slot. -/
def workClear1 (st : MState) (f : Nat) : MState :=
  { st with work := st.work.set f WSlot.clear }

/-- The inner loop of `depwalk_rec` over one slot's cross-references:
`recFn` is the recursive expansion (one less fuel). -/
def walkRefs (recFn : MState → Nat → Option MState) (buildL : Bool) (f : Nat) :
    List Nat → MState → Option MState
  | [], st => some st
  | r :: rs, st =>
    if r = f then none
    else
      match st.work.getD r WSlot.clear with
      | WSlot.clear =>
        match recFn (workInsert st f r) r with
        | none => none
        | some st2 =>
          walkRefs recFn buildL f rs (if buildL then st2 else workRestore st2 f r)
      | _ => walkRefs recFn buildL f rs st

/-- The outer loop of `depwalk_rec` over the node's slots. -/
def walkSlots (g : Graph) (recFn : MState → Nat → Option MState)
    (doExp buildL : Bool) (f : Nat) : List Nat → MState → Option MState
  | [], st => some st
  | s :: ss, st =>
    match walkRefs recFn buildL f (refsFor g st doExp s) st with
    | none => none
    | some st2 => walkSlots g recFn doExp buildL f ss st2

/-- `depwalk_rec` with explicit fuel. -/
def depwalk_rec (g : Graph) (doExp buildL : Bool) : Nat → MState → Nat → Option MState
  | 0, _, _ => none
  | fuel + 1, st, f =>
    walkSlots g (depwalk_rec g doExp buildL fuel) doExp buildL f
      (if doExp then g.exps.getD f [] else g.imps.getD f []) st

/-- `depwalk` (the action itself is external to the state: the repo's
direct-mode visitors only print). -/
def depwalk (g : Graph) (st : MState) (f : Nat) (doExp buildL : Bool) :
    Option MState :=
  if st.work.getD f WSlot.clear = WSlot.clear then
    (depwalk_rec g doExp buildL g.n (workBusy st f) f).map
      (fun st2 => if buildL then st2 else workClear1 st2 f)
  else none

/-- The work list as a node list: follow the chain from `f` until the
slot value is the `BUSY` sentinel (or NULL); `workListIterate` applies
its action to exactly these nodes in this order. -/
def chainList : Nat → MState → Nat → List Nat
  | 0, _, _ => []
  | fuel + 1, st, f =>
    f :: (match st.work.getD f WSlot.clear with
          | WSlot.ptr o => chainList fuel st o
          | _ => [])

/-- `workListRelease`: walk the chain clearing each slot. -/
def workListRelease : Nat → MState → Nat → MState
  | 0, st, _ => st
  | fuel + 1, st, f =>
    match st.work.getD f WSlot.clear with
    | WSlot.ptr o => workListRelease fuel (workClear1 st f) o
    | _ => workClear1 st f

/-- `depwalkListRelease` for a NULL deferred action (as in `unlinkObj`):
just release the work list.  The fuel bounds the chain length. -/
def depwalkListRelease (st : MState) (f : Nat) : MState :=
  workListRelease (st.work.length + 1) st f

/-- One traversal edge: a cross-reference followed from `x` leads to
`y`. -/
def wstep (g : Graph) (st : MState) (doExp : Bool) (x y : Nat) : Prop :=
  ∃ s ∈ (if doExp then g.exps.getD x [] else g.imps.getD x []), y ∈ refsFor g st doExp s

/-- All traversal successors of `o` are marked. -/
def DoneW (g : Graph) (st : MState) (doExp : Bool) (o : Nat) : Prop :=
  ∀ y, wstep g st doExp o y → st.work.getD y WSlot.clear ≠ WSlot.clear

/-- Importer-chain entries name real objects. -/
def ImpRange (g : Graph) (st : MState) : Prop :=
  ∀ s, ∀ p ∈ st.impFrom.getD s [], p.1 < g.n

/-- The intrusive work chain from `a`: consecutive slots hold `ptr`
links and the last slot holds the `BUSY` sentinel. -/
inductive ChainTo (st : MState) : Nat → List Nat → Prop where
  | last (a : Nat) : st.work.getD a WSlot.clear = WSlot.busy → ChainTo st a [a]
  | cons (a b : Nat) (l : List Nat) : st.work.getD a WSlot.clear = WSlot.ptr b →
      ChainTo st b l → ChainTo st a (a :: l)

/-- A well-formed work list: the chain from `start` is duplicate-free
and holds exactly the marked objects. -/
def WorkChain (st : MState) (start : Nat) (L : List Nat) : Prop :=
  ChainTo st start L ∧ L.Nodup ∧
    ∀ o, st.work.getD o WSlot.clear ≠ WSlot.clear ↔ o ∈ L

theorem getD_ne_default_lt {α : Type} (l : List α) (d : α) (i : Nat)
    (h : l.getD i d ≠ d) : i < l.length := by
  by_contra hc
  push_neg at hc
  exact h (List.getD_eq_default _ _ hc)

theorem refsFor_lt {g : Graph} {st : MState} (hwf : graphWF g = true)
    (himp : ImpRange g st) (doExp : Bool) (s : Nat) :
    ∀ r ∈ refsFor g st doExp s, r < g.n := by
  intro r hr
  unfold refsFor at hr
  cases doExp with
  | true =>
    rw [if_pos rfl] at hr
    rcases List.mem_map.mp hr with ⟨p, hp, hpr⟩
    subst hpr
    exact himp s p hp
  | false =>
    rw [if_neg (by simp)] at hr
    cases hh : g.expHead.getD s none with
    | none =>
      rw [hh] at hr
      exact absurd hr (by simp [Option.toList])
    | some e =>
      rw [hh] at hr
      simp only [Option.toList, List.mem_singleton] at hr
      subst hr
      exact graphWF_expHead hwf hh

theorem set_getD_self {α : Type} : ∀ (l : List α) (i : Nat) (d : α), i < l.length →
    l.set i (l.getD i d) = l := by
  intro l
  induction l with
  | nil =>
    intro i d h
    simp at h
  | cons x xs ih =>
    intro i d h
    cases i with
    | zero => rfl
    | succ j =>
      simp only [List.set_cons_succ, List.getD_cons_succ]
      rw [ih j d (by simpa using h)]

theorem mstate_work_eq (st : MState) (w : List WSlot) (h : w = st.work) :
    ({ st with work := w } : MState) = st := by
  rw [h]

theorem set_comm_own {α : Type} : ∀ (l : List α) (i j : Nat) (a b : α), i ≠ j →
    (l.set i a).set j b = (l.set j b).set i a := by
  intro l
  induction l with
  | nil => intro i j a b h; rfl
  | cons x xs ih =>
    intro i j a b h
    cases i with
    | zero =>
      cases j with
      | zero => exact absurd rfl h
      | succ j2 => rfl
    | succ i2 =>
      cases j with
      | zero => rfl
      | succ j2 =>
        simp only [List.set_cons_succ]
        rw [ih i2 j2 a b (fun hc => h (by rw [hc]))]

/-- In direct-action mode the thread-then-restore pair is the
identity. -/
theorem workRestore_workInsert (st : MState) (f r : Nat) (hrf : r ≠ f)
    (hr : r < st.work.length) (hf : f < st.work.length)
    (hrc : st.work.getD r WSlot.clear = WSlot.clear) :
    workRestore (workInsert st f r) f r = st := by
  unfold workRestore workInsert
  dsimp only
  apply mstate_work_eq
  rw [List.set_set]
  rw [show ((st.work.set r (st.work.getD f WSlot.clear)).set f (WSlot.ptr r)).getD r
      WSlot.clear = st.work.getD f WSlot.clear from by
    rw [getD_set_ne _ _ _ _ _ (fun h => hrf h.symm)]
    exact getD_set_self _ _ _ _ hr]
  rw [set_comm_own _ r f _ _ hrf]
  rw [List.set_set]
  rw [set_comm_own _ f r _ _ (fun h => hrf h.symm)]
  rw [show st.work.set r WSlot.clear = st.work from by
    rw [← hrc]
    exact set_getD_self _ _ _ hr]
  exact set_getD_self _ _ _ hf

theorem workInsert_work_r (st : MState) (f r : Nat) (hrf : r ≠ f)
    (hr : r < st.work.length) :
    (workInsert st f r).work.getD r WSlot.clear = st.work.getD f WSlot.clear := by
  unfold workInsert
  rw [getD_set_ne _ _ _ _ _ (fun h => hrf h.symm)]
  exact getD_set_self _ _ _ _ hr

theorem workInsert_length (st : MState) (f r : Nat) :
    (workInsert st f r).work.length = st.work.length := by
  unfold workInsert
  rw [List.length_set, List.length_set]

theorem workInsert_impFrom (st : MState) (f r : Nat) :
    (workInsert st f r).impFrom = st.impFrom := rfl

theorem walkRefs_direct_id (g : Graph)
    (recFn : MState → Nat → Option MState)
    (Hrec : ∀ st r, st.work.length = g.n → ImpRange g st → r < g.n →
      st.work.getD r WSlot.clear ≠ WSlot.clear →
      ∀ st2, recFn st r = some st2 → st2 = st)
    (f : Nat) :
    ∀ refs st, st.work.length = g.n → ImpRange g st → f < g.n →
      st.work.getD f WSlot.clear ≠ WSlot.clear →
      (∀ r ∈ refs, r < g.n) →
      ∀ st2, walkRefs recFn false f refs st = some st2 → st2 = st := by
  intro refs
  induction refs with
  | nil =>
    intro st _ _ _ _ _ st2 h
    rw [walkRefs] at h
    exact (Option.some_inj.mp h).symm
  | cons r rs ih =>
    intro st hlen himp hfn hfw hrefs st2 h
    rw [walkRefs] at h
    by_cases hrf : r = f
    · rw [if_pos hrf] at h
      exact absurd h (by simp)
    · rw [if_neg hrf] at h
      cases hwr : st.work.getD r WSlot.clear with
      | clear =>
        rw [hwr] at h
        have hrn : r < g.n := hrefs r (List.mem_cons_self _ _)
        cases hmid : recFn (workInsert st f r) r with
        | none =>
          rw [hmid] at h
          exact absurd h (by simp)
        | some stMid =>
          rw [hmid] at h
          have hMid : stMid = workInsert st f r := by
            refine Hrec (workInsert st f r) r ?_ ?_ hrn ?_ stMid hmid
            · rw [workInsert_length]
              exact hlen
            · intro s p hp
              rw [workInsert_impFrom] at hp
              exact himp s p hp
            · rw [workInsert_work_r st f r hrf (by rw [hlen]; exact hrn)]
              exact hfw
          simp only [Bool.false_eq_true, if_false] at h
          rw [hMid, workRestore_workInsert st f r hrf (by rw [hlen]; exact hrn)
            (by rw [hlen]; exact hfn) hwr] at h
          exact ih st hlen himp hfn hfw (fun x hx => hrefs x (List.mem_cons_of_mem _ hx))
            st2 h
      | busy =>
        rw [hwr] at h
        exact ih st hlen himp hfn hfw (fun x hx => hrefs x (List.mem_cons_of_mem _ hx))
          st2 h
      | ptr o =>
        rw [hwr] at h
        exact ih st hlen himp hfn hfw (fun x hx => hrefs x (List.mem_cons_of_mem _ hx))
          st2 h

theorem walkSlots_direct_id (g : Graph) (hwf : graphWF g = true)
    (recFn : MState → Nat → Option MState)
    (Hrec : ∀ st r, st.work.length = g.n → ImpRange g st → r < g.n →
      st.work.getD r WSlot.clear ≠ WSlot.clear →
      ∀ st2, recFn st r = some st2 → st2 = st)
    (doExp : Bool) (f : Nat) :
    ∀ ss st, st.work.length = g.n → ImpRange g st → f < g.n →
      st.work.getD f WSlot.clear ≠ WSlot.clear →
      ∀ st2, walkSlots g recFn doExp false f ss st = some st2 → st2 = st := by
  intro ss
  induction ss with
  | nil =>
    intro st _ _ _ _ st2 h
    rw [walkSlots] at h
    exact (Option.some_inj.mp h).symm
  | cons s rest ih =>
    intro st hlen himp hfn hfw st2 h
    rw [walkSlots] at h
    cases hmid : walkRefs recFn false f (refsFor g st doExp s) st with
    | none =>
      rw [hmid] at h
      exact absurd h (by simp)
    | some stMid =>
      rw [hmid] at h
      have hMid : stMid = st :=
        walkRefs_direct_id g recFn Hrec f (refsFor g st doExp s) st hlen himp hfn hfw
          (refsFor_lt hwf himp doExp s) stMid hmid
      rw [hMid] at h
      exact ih st hlen himp hfn hfw st2 h

theorem depwalk_rec_direct_id (g : Graph) (hwf : graphWF g = true) (doExp : Bool) :
    ∀ fuel st f st2, st.work.length = g.n → ImpRange g st → f < g.n →
      st.work.getD f WSlot.clear ≠ WSlot.clear →
      depwalk_rec g doExp false fuel st f = some st2 → st2 = st := by
  intro fuel
  induction fuel with
  | zero =>
    intro st f st2 _ _ _ _ h
    exact absurd h (by rw [depwalk_rec]; simp)
  | succ fuel ih =>
    intro st f st2 hlen himp hfn hfw h
    rw [depwalk_rec] at h
    exact walkSlots_direct_id g hwf (depwalk_rec g doExp false fuel)
      (fun st3 r hl hi hr hw st4 hh => ih st3 r st4 hl hi hr hw hh) doExp f _ st
      hlen himp hfn hfw st2 h

/-- A completed direct-action `depwalk` leaves the state — in
particular every `work` slot — exactly as it found it. -/
theorem depwalk_direct_id (g : Graph) (hwf : graphWF g = true) (doExp : Bool)
    (st : MState) (f : Nat) (st2 : MState) (hlen : st.work.length = g.n)
    (himp : ImpRange g st) (hfn : f < g.n) :
    depwalk g st f doExp false = some st2 → st2 = st := by
  unfold depwalk
  by_cases hw0 : st.work.getD f WSlot.clear = WSlot.clear
  · rw [if_pos hw0]
    intro h
    cases hrec : depwalk_rec g doExp false g.n (workBusy st f) f with
    | none =>
      rw [hrec] at h
      exact absurd h (by simp)
    | some st3 =>
      rw [hrec] at h
      simp only [Option.map_some', Option.some_inj] at h
      have h3 : st3 = workBusy st f := by
        refine depwalk_rec_direct_id g hwf doExp g.n (workBusy st f) f st3 ?_ ?_ hfn ?_
          hrec
        · show (st.work.set f WSlot.busy).length = g.n
          rw [List.length_set]
          exact hlen
        · exact himp
        · show (st.work.set f WSlot.busy).getD f WSlot.clear ≠ WSlot.clear
          rw [getD_set_self _ _ _ _ (by rw [hlen]; exact hfn)]
          simp
      subst h3
      rw [← h]
      show workClear1 (workBusy st f) f = st
      unfold workClear1 workBusy
      dsimp only
      apply mstate_work_eq
      rw [List.set_set, ← hw0]
      exact set_getD_self _ _ _ (by rw [hlen]; exact hfn)
  · rw [if_neg hw0]
    intro h
    exact absurd h (by simp)

theorem refsFor_congr {g : Graph} {st st2 : MState} (h : st2.impFrom = st.impFrom)
    (doExp : Bool) (s : Nat) : refsFor g st2 doExp s = refsFor g st doExp s := by
  unfold refsFor
  rw [h]

theorem wstep_congr {g : Graph} {st st2 : MState} (h : st2.impFrom = st.impFrom)
    (doExp : Bool) (x y : Nat) : wstep g st2 doExp x y ↔ wstep g st doExp x y := by
  unfold wstep
  constructor
  · rintro ⟨s, hs, hy⟩
    rw [refsFor_congr h] at hy
    exact ⟨s, hs, hy⟩
  · rintro ⟨s, hs, hy⟩
    rw [← refsFor_congr h doExp s] at hy
    exact ⟨s, hs, hy⟩

theorem doneW_mono {g : Graph} {st2 st3 : MState} {doExp : Bool} {o : Nat}
    (himp : st3.impFrom = st2.impFrom)
    (hm : ∀ x, st2.work.getD x WSlot.clear ≠ WSlot.clear →
      st3.work.getD x WSlot.clear ≠ WSlot.clear)
    (h : DoneW g st2 doExp o) : DoneW g st3 doExp o := by
  intro y hy
  rw [wstep_congr himp] at hy
  exact hm y (h y hy)

theorem chainTo_marked {st : MState} {a : Nat} {L : List Nat} (h : ChainTo st a L) :
    ∀ x ∈ L, st.work.getD x WSlot.clear ≠ WSlot.clear := by
  induction h with
  | last a hb =>
    intro x hx
    simp only [List.mem_singleton] at hx
    subst hx
    rw [hb]
    simp
  | cons a b l hab hbl ih =>
    intro x hx
    rcases List.mem_cons.mp hx with hx | hx
    · subst hx
      rw [hab]
      simp
    · exact ih x hx

theorem chainTo_congr {st st2 : MState} {a : Nat} {L : List Nat}
    (h : ChainTo st a L)
    (hw : ∀ x ∈ L, st2.work.getD x WSlot.clear = st.work.getD x WSlot.clear) :
    ChainTo st2 a L := by
  induction h with
  | last a hb =>
    exact ChainTo.last a (by rw [hw a (List.mem_singleton.mpr rfl)]; exact hb)
  | cons a b l hab hbl ih =>
    exact ChainTo.cons a b l (by rw [hw a (List.mem_cons_self _ _)]; exact hab)
      (ih (fun x hx => hw x (List.mem_cons_of_mem _ hx)))

theorem chainTo_insert (st : MState) (f r : Nat) (hrf : r ≠ f)
    (hr : r < st.work.length) :
    ∀ a L, ChainTo st a L → L.Nodup → r ∉ L → f ∈ L →
      ∃ L2, ChainTo (workInsert st f r) a L2 ∧ L2.Nodup ∧ (∀ x ∈ L, x ∈ L2) ∧
        (∀ x ∈ L2, x ∈ L ∨ x = r) ∧ r ∈ L2 := by
  intro a L h
  induction h with
  | last a hb =>
    intro _ hrL hfL
    simp only [List.mem_singleton] at hfL
    subst hfL
    have hflen : f < st.work.length := getD_ne_default_lt _ _ _ (by rw [hb]; simp)
    refine ⟨[f, r], ?_, ?_, ?_, ?_, ?_⟩
    · refine ChainTo.cons f r [r] ?_ (ChainTo.last r ?_)
      · show ((st.work.set r (st.work.getD f WSlot.clear)).set f
          (WSlot.ptr r)).getD f WSlot.clear = WSlot.ptr r
        exact getD_set_self _ _ _ _ (by rw [List.length_set]; exact hflen)
      · rw [workInsert_work_r st f r hrf hr, hb]
    · refine List.nodup_cons.mpr ⟨?_, by simp⟩
      simp only [List.mem_singleton]
      exact fun h => hrf h.symm
    · intro x hx
      simp only [List.mem_singleton] at hx
      subst hx
      exact List.mem_cons_self _ _
    · intro x hx
      rcases List.mem_cons.mp hx with hx | hx
      · exact Or.inl (by simp [hx])
      · simp only [List.mem_singleton] at hx
        exact Or.inr hx
    · exact List.mem_cons_of_mem _ (List.mem_cons_self _ _)
  | cons a b l hab hbl ih =>
    intro hnd hrL hfL
    by_cases hfa : f = a
    · subst hfa
      have hflen : f < st.work.length := getD_ne_default_lt _ _ _ (by rw [hab]; simp)
      refine ⟨f :: r :: l, ?_, ?_, ?_, ?_, ?_⟩
      · refine ChainTo.cons f r (r :: l) ?_ (ChainTo.cons r b l ?_ ?_)
        · show ((st.work.set r (st.work.getD f WSlot.clear)).set f
            (WSlot.ptr r)).getD f WSlot.clear = WSlot.ptr r
          exact getD_set_self _ _ _ _ (by rw [List.length_set]; exact hflen)
        · rw [workInsert_work_r st f r hrf hr, hab]
        · refine chainTo_congr hbl ?_
          intro x hx
          have hxf : x ≠ f := by
            intro hc
            subst hc
            exact (List.nodup_cons.mp hnd).1 hx
          have hxr : x ≠ r := by
            intro hc
            subst hc
            exact hrL (List.mem_cons_of_mem _ hx)
          show ((st.work.set r (st.work.getD f WSlot.clear)).set f
            (WSlot.ptr r)).getD x WSlot.clear = st.work.getD x WSlot.clear
          rw [getD_set_ne _ _ _ _ _ (fun hc => hxf hc.symm),
            getD_set_ne _ _ _ _ _ (fun hc => hxr hc.symm)]
      · refine List.nodup_cons.mpr ⟨?_, List.nodup_cons.mpr ⟨?_, (List.nodup_cons.mp hnd).2⟩⟩
        · intro hc
          rcases List.mem_cons.mp hc with hc | hc
          · exact hrf hc.symm
          · exact (List.nodup_cons.mp hnd).1 hc
        · intro hc
          exact hrL (List.mem_cons_of_mem _ hc)
      · intro x hx
        rcases List.mem_cons.mp hx with hx | hx
        · subst hx
          exact List.mem_cons_self _ _
        · exact List.mem_cons_of_mem _ (List.mem_cons_of_mem _ hx)
      · intro x hx
        rcases List.mem_cons.mp hx with hx | hx
        · exact Or.inl (by rw [hx]; exact List.mem_cons_self _ _)
        · rcases List.mem_cons.mp hx with hx | hx
          · exact Or.inr hx
          · exact Or.inl (List.mem_cons_of_mem _ hx)
      · exact List.mem_cons_of_mem _ (List.mem_cons_self _ _)
    · have hfl : f ∈ l := by
        rcases List.mem_cons.mp hfL with hc | hc
        · exact absurd hc hfa
        · exact hc
      have hres := ih (List.nodup_cons.mp hnd).2
        (fun hc => hrL (List.mem_cons_of_mem _ hc)) hfl
      rcases hres with ⟨L2, hch, hnd2, hsub, hsup, hrmem⟩
      refine ⟨a :: L2, ?_, ?_, ?_, ?_, ?_⟩
      · refine ChainTo.cons a b L2 ?_ hch
        have haf : a ≠ f := fun hc => hfa hc.symm
        have har : a ≠ r := by
          intro hc
          exact hrL (by rw [← hc]; exact List.mem_cons_self _ _)
        show ((st.work.set r (st.work.getD f WSlot.clear)).set f
          (WSlot.ptr r)).getD a WSlot.clear = WSlot.ptr b
        rw [getD_set_ne _ _ _ _ _ (fun hc => haf hc.symm),
          getD_set_ne _ _ _ _ _ (fun hc => har hc.symm)]
        exact hab
      · refine List.nodup_cons.mpr ⟨?_, hnd2⟩
        intro hc
        rcases hsup a hc with hc2 | hc2
        · exact (List.nodup_cons.mp hnd).1 hc2
        · exact hrL (by rw [← hc2]; exact List.mem_cons_self _ _)
      · intro x hx
        rcases List.mem_cons.mp hx with hx | hx
        · subst hx
          exact List.mem_cons_self _ _
        · exact List.mem_cons_of_mem _ (hsub x hx)
      · intro x hx
        rcases List.mem_cons.mp hx with hx | hx
        · exact Or.inl (by rw [hx]; exact List.mem_cons_self _ _)
        · rcases hsup x hx with hc | hc
          · exact Or.inl (List.mem_cons_of_mem _ hc)
          · exact Or.inr hc
      · exact List.mem_cons_of_mem _ hrmem

/-- Insertion of a fresh node `r` after chain member `f` preserves
work-list well-formedness. -/
theorem workChain_insert (st : MState) (f r start : Nat) (L : List Nat)
    (hwc : WorkChain st start L) (hf : f ∈ L) (hr : r ∉ L)
    (hrlen : r < st.work.length) :
    ∃ L2, WorkChain (workInsert st f r) start L2 ∧ (∀ x ∈ L, x ∈ L2) ∧ r ∈ L2 ∧
      (∀ x ∈ L2, x ∈ L ∨ x = r) := by
  have hrf : r ≠ f := fun hc => hr (hc ▸ hf)
  have hfm : st.work.getD f WSlot.clear ≠ WSlot.clear := (hwc.2.2 f).mpr hf
  rcases chainTo_insert st f r hrf hrlen start L hwc.1 hwc.2.1 hr hf with
    ⟨L2, hch, hnd2, hsub, hsup, hrmem⟩
  refine ⟨L2, ⟨hch, hnd2, ?_⟩, hsub, hrmem, hsup⟩
  intro o
  by_cases hor : o = r
  · constructor
    · intro _
      rw [hor]
      exact hrmem
    · intro _
      rw [hor, workInsert_work_r st f r hrf hrlen]
      exact hfm
  · by_cases hof : o = f
    · have hflen : f < st.work.length := getD_ne_default_lt _ _ _ hfm
      constructor
      · intro _
        rw [hof]
        exact hsub f hf
      · intro _
        rw [hof]
        show ((st.work.set r (st.work.getD f WSlot.clear)).set f
          (WSlot.ptr r)).getD f WSlot.clear ≠ WSlot.clear
        rw [getD_set_self _ _ _ _ (by rw [List.length_set]; exact hflen)]
        simp
    · have hsame : (workInsert st f r).work.getD o WSlot.clear =
          st.work.getD o WSlot.clear := by
        show ((st.work.set r (st.work.getD f WSlot.clear)).set f
          (WSlot.ptr r)).getD o WSlot.clear = st.work.getD o WSlot.clear
        rw [getD_set_ne _ _ _ _ _ (fun hc => hof hc.symm),
          getD_set_ne _ _ _ _ _ (fun hc => hor hc.symm)]
      rw [hsame]
      constructor
      · intro hm
        exact hsub o ((hwc.2.2 o).mp hm)
      · intro hm
        rcases hsup o hm with hc | hc
        · exact (hwc.2.2 o).mpr hc
        · exact absurd hc hor

/-- Postcondition of a list-building traversal fragment around node
`f`: only `work` slots change; marks are never dropped; a marked slot
other than `f`'s keeps its value; every newly marked object is
traversal-reachable from `f` and has all its successors marked; and a
well-formed work chain containing `f` is extended to a well-formed
chain. -/
structure BWalk (g : Graph) (doExp : Bool) (st st2 : MState) (f : Nat) : Prop where
  len : st2.work.length = st.work.length
  anchorEq : st2.anchor = st.anchor
  impFromEq : st2.impFrom = st.impFrom
  appSetEq : st2.appSet = st.appSet
  optSetEq : st2.optSet = st.optSet
  markMono : ∀ o, st.work.getD o WSlot.clear ≠ WSlot.clear →
    st2.work.getD o WSlot.clear ≠ WSlot.clear
  frame : ∀ o, o ≠ f → st.work.getD o WSlot.clear ≠ WSlot.clear →
    st2.work.getD o WSlot.clear = st.work.getD o WSlot.clear
  newMarks : ∀ o, st.work.getD o WSlot.clear = WSlot.clear →
    st2.work.getD o WSlot.clear ≠ WSlot.clear →
    Relation.ReflTransGen (wstep g st doExp) f o ∧ DoneW g st2 doExp o
  chain : ∀ start L, WorkChain st start L → f ∈ L →
    ∃ L2, WorkChain st2 start L2 ∧ (∀ x ∈ L, x ∈ L2) ∧
      (∀ x ∈ L2, x ∈ L ∨ st.work.getD x WSlot.clear = WSlot.clear)

theorem bwalk_id (g : Graph) (doExp : Bool) (st : MState) (f : Nat) :
    BWalk g doExp st st f :=
  { len := rfl
    anchorEq := rfl
    impFromEq := rfl
    appSetEq := rfl
    optSetEq := rfl
    markMono := fun _ h => h
    frame := fun _ _ _ => rfl
    newMarks := fun _ h1 h2 => absurd h1 h2
    chain := fun _ L hwc _ => ⟨L, hwc, fun _ hx => hx, fun _ hx => Or.inl hx⟩ }

theorem bwalk_trans {g : Graph} {doExp : Bool} {st st2 st3 : MState} {f : Nat}
    (h1 : BWalk g doExp st st2 f) (h2 : BWalk g doExp st2 st3 f) :
    BWalk g doExp st st3 f :=
  { len := h2.len.trans h1.len
    anchorEq := h2.anchorEq.trans h1.anchorEq
    impFromEq := h2.impFromEq.trans h1.impFromEq
    appSetEq := h2.appSetEq.trans h1.appSetEq
    optSetEq := h2.optSetEq.trans h1.optSetEq
    markMono := fun o h => h2.markMono o (h1.markMono o h)
    frame := fun o hof h =>
      (h2.frame o hof (h1.markMono o h)).trans (h1.frame o hof h)
    newMarks := by
      intro o hc hm
      by_cases hmid : st2.work.getD o WSlot.clear = WSlot.clear
      · have hn := h2.newMarks o hmid hm
        refine ⟨?_, hn.2⟩
        have := hn.1
        refine Relation.ReflTransGen.mono ?_ this
        intro x y hxy
        rw [wstep_congr h1.impFromEq] at hxy
        exact hxy
      · have hn := h1.newMarks o hc hmid
        exact ⟨hn.1, doneW_mono h2.impFromEq h2.markMono hn.2⟩
    chain := by
      intro start L hwc hf
      rcases h1.chain start L hwc hf with ⟨L2, hwc2, hsub2, hnew2⟩
      rcases h2.chain start L2 hwc2 (hsub2 f hf) with ⟨L3, hwc3, hsub3, hnew3⟩
      refine ⟨L3, hwc3, fun x hx => hsub3 x (hsub2 x hx), ?_⟩
      intro x hx
      rcases hnew3 x hx with hc | hc
      · rcases hnew2 x hc with hc2 | hc2
        · exact Or.inl hc2
        · exact Or.inr hc2
      · by_cases hcl : st.work.getD x WSlot.clear = WSlot.clear
        · exact Or.inr hcl
        · exact absurd (h1.markMono x hcl) (by rw [hc]; simp) }

/-- Specification of the recursive expansion in list-building mode. -/
def BSpec (g : Graph) (doExp : Bool) (recFn : MState → Nat → Option MState) : Prop :=
  ∀ st r, st.work.length = g.n → ImpRange g st → r < g.n →
    st.work.getD r WSlot.clear ≠ WSlot.clear →
    ∀ st2, recFn st r = some st2 → BWalk g doExp st st2 r ∧ DoneW g st2 doExp r

theorem workInsert_bwalk_conv {g : Graph} {doExp : Bool} {st st3 : MState} {f r : Nat}
    (hrf : r ≠ f) (hrlen : r < st.work.length)
    (hfm : st.work.getD f WSlot.clear ≠ WSlot.clear)
    (hrc : st.work.getD r WSlot.clear = WSlot.clear)
    (hedge : wstep g st doExp f r)
    (hb : BWalk g doExp (workInsert st f r) st3 r)
    (hdone : DoneW g st3 doExp r) : BWalk g doExp st st3 f := by
  have hIimp : (workInsert st f r).impFrom = st.impFrom := rfl
  have hIw : ∀ o, o ≠ r → o ≠ f →
      (workInsert st f r).work.getD o WSlot.clear = st.work.getD o WSlot.clear := by
    intro o hor hof
    show ((st.work.set r (st.work.getD f WSlot.clear)).set f
      (WSlot.ptr r)).getD o WSlot.clear = st.work.getD o WSlot.clear
    rw [getD_set_ne _ _ _ _ _ (fun hc => hof hc.symm),
      getD_set_ne _ _ _ _ _ (fun hc => hor hc.symm)]
  have hIr : (workInsert st f r).work.getD r WSlot.clear =
      st.work.getD f WSlot.clear := workInsert_work_r st f r hrf hrlen
  have hflen : f < st.work.length := getD_ne_default_lt _ _ _ hfm
  have hIf : (workInsert st f r).work.getD f WSlot.clear = WSlot.ptr r := by
    show ((st.work.set r (st.work.getD f WSlot.clear)).set f
      (WSlot.ptr r)).getD f WSlot.clear = WSlot.ptr r
    exact getD_set_self _ _ _ _ (by rw [List.length_set]; exact hflen)
  refine
    { len := by rw [hb.len, workInsert_length]
      anchorEq := hb.anchorEq
      impFromEq := hb.impFromEq
      appSetEq := hb.appSetEq
      optSetEq := hb.optSetEq
      markMono := ?_
      frame := ?_
      newMarks := ?_
      chain := ?_ }
  · intro o hm
    by_cases hor : o = r
    · rw [hor]
      exact hb.markMono r (by rw [hIr]; exact hfm)
    · by_cases hof : o = f
      · rw [hof]
        have := hb.frame f (fun hc => hrf hc.symm) (by rw [hIf]; simp)
        rw [this, hIf]
        simp
      · have := hb.markMono o (by rw [hIw o hor hof]; exact hm)
        exact this
  · intro o hof hm
    have hor : o ≠ r := by
      intro hc
      rw [hc, hrc] at hm
      exact hm rfl
    rw [hb.frame o hor (by rw [hIw o hor hof]; exact hm), hIw o hor hof]
  · intro o hc hm
    by_cases hor : o = r
    · subst hor
      exact ⟨Relation.ReflTransGen.single hedge, doneW_mono rfl (fun x h => h) hdone⟩
    · by_cases hof : o = f
      · rw [hof] at hc
        exact absurd hc hfm
      · have hcI : (workInsert st f r).work.getD o WSlot.clear = WSlot.clear := by
          rw [hIw o hor hof]
          exact hc
        have hn := hb.newMarks o hcI hm
        refine ⟨Relation.ReflTransGen.head hedge ?_, hn.2⟩
        refine Relation.ReflTransGen.mono ?_ hn.1
        intro x y hxy
        rw [wstep_congr hIimp] at hxy
        exact hxy
  · intro start L hwc hf
    have hrL : r ∉ L := by
      intro hc
      exact absurd hrc ((hwc.2.2 r).mpr hc)
    rcases workChain_insert st f r start L hwc hf hrL hrlen with
      ⟨L2, hwc2, hsub2, hrmem2, hsup2⟩
    rcases hb.chain start L2 hwc2 hrmem2 with ⟨L3, hwc3, hsub3, hsup3⟩
    refine ⟨L3, hwc3, fun x hx => hsub3 x (hsub2 x hx), ?_⟩
    intro x hx
    rcases hsup3 x hx with hc | hc
    · rcases hsup2 x hc with hc2 | hc2
      · exact Or.inl hc2
      · exact Or.inr (hc2 ▸ hrc)
    · by_cases hor : x = r
      · exact Or.inr (hor ▸ hrc)
      · by_cases hof : x = f
        · rw [hof, hIf] at hc
          exact absurd hc (by simp)
        · rw [hIw x hor hof] at hc
          exact Or.inr hc

theorem walkRefs_build (g : Graph) (doExp : Bool)
    (recFn : MState → Nat → Option MState) (Hrec : BSpec g doExp recFn) (f : Nat) :
    ∀ refs st, st.work.length = g.n → ImpRange g st →
      (∀ r ∈ refs, r < g.n) → (∀ r ∈ refs, wstep g st doExp f r) →
      st.work.getD f WSlot.clear ≠ WSlot.clear →
      ∀ st2, walkRefs recFn true f refs st = some st2 →
        BWalk g doExp st st2 f ∧
          (∀ r ∈ refs, st2.work.getD r WSlot.clear ≠ WSlot.clear) := by
  intro refs
  induction refs with
  | nil =>
    intro st _ _ _ _ _ st2 h
    rw [walkRefs] at h
    rw [← Option.some_inj.mp h]
    exact ⟨bwalk_id g doExp st f, by simp⟩
  | cons r rs ih =>
    intro st hlen himp hrange hedge hfm st2 h
    rw [walkRefs] at h
    by_cases hrf : r = f
    · rw [if_pos hrf] at h
      exact absurd h (by simp)
    · rw [if_neg hrf] at h
      have hrn : r < g.n := hrange r (List.mem_cons_self _ _)
      cases hwr : st.work.getD r WSlot.clear with
      | clear =>
        rw [hwr] at h
        cases hmid : recFn (workInsert st f r) r with
        | none =>
          rw [hmid] at h
          exact absurd h (by simp)
        | some st3 =>
          rw [hmid] at h
          simp only [if_pos] at h
          have hrec := Hrec (workInsert st f r) r
            (by rw [workInsert_length]; exact hlen)
            (by
              intro s p hp
              rw [workInsert_impFrom] at hp
              exact himp s p hp)
            hrn
            (by
              rw [workInsert_work_r st f r hrf (by rw [hlen]; exact hrn)]
              exact hfm)
            st3 hmid
          have hcomb : BWalk g doExp st st3 f :=
            workInsert_bwalk_conv hrf (by rw [hlen]; exact hrn) hfm hwr
              (hedge r (List.mem_cons_self _ _)) hrec.1 hrec.2
          have hrest := ih st3
            (by rw [hcomb.len]; exact hlen)
            (by
              intro s p hp
              rw [hcomb.impFromEq] at hp
              exact himp s p hp)
            (fun x hx => hrange x (List.mem_cons_of_mem _ hx))
            (by
              intro x hx
              rw [wstep_congr hcomb.impFromEq]
              exact hedge x (List.mem_cons_of_mem _ hx))
            (hcomb.markMono f hfm)
            st2 h
          refine ⟨bwalk_trans hcomb hrest.1, ?_⟩
          intro x hx
          rcases List.mem_cons.mp hx with hx | hx
          · have hr3 : st3.work.getD r WSlot.clear ≠ WSlot.clear := by
              refine hrec.1.markMono r ?_
              rw [workInsert_work_r st f r hrf (by rw [hlen]; exact hrn)]
              exact hfm
            rw [hx]
            exact hrest.1.markMono r hr3
          · exact hrest.2 x hx
      | busy =>
        rw [hwr] at h
        have hrest := ih st hlen himp (fun x hx => hrange x (List.mem_cons_of_mem _ hx))
          (fun x hx => hedge x (List.mem_cons_of_mem _ hx)) hfm st2 h
        refine ⟨hrest.1, ?_⟩
        intro x hx
        rcases List.mem_cons.mp hx with hx | hx
        · rw [hx]
          exact hrest.1.markMono r (by rw [hwr]; simp)
        · exact hrest.2 x hx
      | ptr o =>
        rw [hwr] at h
        have hrest := ih st hlen himp (fun x hx => hrange x (List.mem_cons_of_mem _ hx))
          (fun x hx => hedge x (List.mem_cons_of_mem _ hx)) hfm st2 h
        refine ⟨hrest.1, ?_⟩
        intro x hx
        rcases List.mem_cons.mp hx with hx | hx
        · rw [hx]
          exact hrest.1.markMono r (by rw [hwr]; simp)
        · exact hrest.2 x hx

theorem walkSlots_build (g : Graph) (hwf : graphWF g = true) (doExp : Bool)
    (recFn : MState → Nat → Option MState) (Hrec : BSpec g doExp recFn) (f : Nat) :
    ∀ ss st, st.work.length = g.n → ImpRange g st →
      (∀ s ∈ ss, s ∈ (if doExp then g.exps.getD f [] else g.imps.getD f [])) →
      st.work.getD f WSlot.clear ≠ WSlot.clear →
      ∀ st2, walkSlots g recFn doExp true f ss st = some st2 →
        BWalk g doExp st st2 f ∧
          (∀ s ∈ ss, ∀ r ∈ refsFor g st doExp s,
            st2.work.getD r WSlot.clear ≠ WSlot.clear) := by
  intro ss
  induction ss with
  | nil =>
    intro st _ _ _ _ st2 h
    rw [walkSlots] at h
    rw [← Option.some_inj.mp h]
    exact ⟨bwalk_id g doExp st f, by simp⟩
  | cons s rest ih =>
    intro st hlen himp hss hfm st2 h
    rw [walkSlots] at h
    cases hmid : walkRefs recFn true f (refsFor g st doExp s) st with
    | none =>
      rw [hmid] at h
      exact absurd h (by simp)
    | some stMid =>
      rw [hmid] at h
      have hrefs := walkRefs_build g doExp recFn Hrec f (refsFor g st doExp s) st
        hlen himp (refsFor_lt hwf himp doExp s)
        (fun r hr => ⟨s, hss s (List.mem_cons_self _ _), hr⟩) hfm stMid hmid
      have hrest := ih stMid
        (by rw [hrefs.1.len]; exact hlen)
        (by
          intro t p hp
          rw [hrefs.1.impFromEq] at hp
          exact himp t p hp)
        (fun t ht => hss t (List.mem_cons_of_mem _ ht))
        (hrefs.1.markMono f hfm)
        st2 h
      refine ⟨bwalk_trans hrefs.1 hrest.1, ?_⟩
      intro t ht r hr
      rcases List.mem_cons.mp ht with ht | ht
      · rw [ht] at hr
        exact hrest.1.markMono r (hrefs.2 r hr)
      · refine hrest.2 t ht r ?_
        rw [refsFor_congr hrefs.1.impFromEq]
        exact hr

theorem depwalk_rec_build (g : Graph) (hwf : graphWF g = true) (doExp : Bool) :
    ∀ fuel, BSpec g doExp (depwalk_rec g doExp true fuel) := by
  intro fuel
  induction fuel with
  | zero =>
    intro st r _ _ _ _ st2 h
    exact absurd h (by rw [depwalk_rec]; simp)
  | succ fuel ih =>
    intro st r hlen himp hrn hrm st2 h
    rw [depwalk_rec] at h
    have hres := walkSlots_build g hwf doExp (depwalk_rec g doExp true fuel) ih r
      (if doExp then g.exps.getD r [] else g.imps.getD r []) st hlen himp
      (fun s hs => hs) hrm st2 h
    refine ⟨hres.1, ?_⟩
    intro y hy
    rw [wstep_congr hres.1.impFromEq] at hy
    rcases hy with ⟨s, hs, hr⟩
    exact hres.2 s hs y hr

/-! ### Totality of the traversal

With enough fuel and no self-referencing cross-reference the traversal
never aborts: every recursive call is made on a freshly marked object,
so the number of clear `work` slots strictly decreases along every
recursion path. -/

/-- Number of clear `work` slots. -/
def clearCount (w : List WSlot) : Nat :=
  w.countP (fun a => decide (a = WSlot.clear))

/-- The precondition of claim C10: no object both exports a symbol and
holds a linked import of that same symbol, and no object is the first
exporter of a symbol it imports. -/
def selfRefFree (g : Graph) (st : MState) : Bool :=
  (List.range g.n).all (fun o =>
    ((g.exps.getD o []).all fun s =>
      (st.impFrom.getD s []).all fun p => decide (p.1 ≠ o)) &&
    ((g.imps.getD o []).all fun s => decide (g.expHead.getD s none ≠ some o)))

theorem selfRefFree_congr {g : Graph} {st st2 : MState}
    (h : st2.impFrom = st.impFrom) : selfRefFree g st2 = selfRefFree g st := by
  unfold selfRefFree
  rw [h]

theorem selfRefFree_no_self {g : Graph} {st : MState} (h : selfRefFree g st = true)
    (doExp : Bool) (x : Nat) (hx : x < g.n) :
    ∀ s ∈ (if doExp then g.exps.getD x [] else g.imps.getD x []),
      ∀ r ∈ refsFor g st doExp s, r ≠ x := by
  intro s hs r hr
  have hx2 := List.all_eq_true.mp h x (List.mem_range.mpr hx)
  rw [Bool.and_eq_true] at hx2
  cases doExp with
  | true =>
    rw [if_pos rfl] at hs
    unfold refsFor at hr
    rw [if_pos rfl] at hr
    rcases List.mem_map.mp hr with ⟨p, hp, hpr⟩
    have := List.all_eq_true.mp (List.all_eq_true.mp hx2.1 s hs) p hp
    rw [← hpr]
    simpa using this
  | false =>
    rw [if_neg (by simp)] at hs
    unfold refsFor at hr
    rw [if_neg (by simp)] at hr
    have := List.all_eq_true.mp hx2.2 s hs
    cases hh : g.expHead.getD s none with
    | none =>
      rw [hh] at hr
      exact absurd hr (by simp [Option.toList])
    | some e =>
      rw [hh] at hr
      simp only [Option.toList, List.mem_singleton] at hr
      subst hr
      rw [hh] at this
      intro hc
      subst hc
      simp at this

theorem clearCount_set_fill : ∀ (w : List WSlot) (i : Nat) (v : WSlot),
    i < w.length → w.getD i WSlot.clear = WSlot.clear → v ≠ WSlot.clear →
    clearCount (w.set i v) + 1 = clearCount w := by
  intro w
  induction w with
  | nil =>
    intro i v hi
    simp at hi
  | cons x xs ih =>
    intro i v hi hc hv
    cases i with
    | zero =>
      simp only [List.getD_cons_zero] at hc
      subst hc
      simp [clearCount, List.countP_cons, hv]
    | succ j =>
      simp only [List.getD_cons_succ] at hc
      have := ih j v (by simpa using hi) hc hv
      simp only [List.set_cons_succ, clearCount, List.countP_cons] at *
      omega

theorem clearCount_set_keep : ∀ (w : List WSlot) (i : Nat) (v : WSlot),
    w.getD i WSlot.clear ≠ WSlot.clear → v ≠ WSlot.clear →
    clearCount (w.set i v) = clearCount w := by
  intro w
  induction w with
  | nil =>
    intro i v hi _
    simp only [List.getD] at hi
    simp at hi
  | cons x xs ih =>
    intro i v hi hv
    cases i with
    | zero =>
      simp only [List.getD_cons_zero] at hi
      simp [clearCount, List.countP_cons, hi, hv]
    | succ j =>
      simp only [List.getD_cons_succ] at hi
      have := ih j v hi hv
      simp only [List.set_cons_succ, clearCount, List.countP_cons] at *
      omega

/-- Facts about a completed traversal call on `r` used by the
fuel-sufficiency argument. -/
structure TFacts (st st2 : MState) (f : Nat) : Prop where
  len : st2.work.length = st.work.length
  impFromEq : st2.impFrom = st.impFrom
  clearMono : ∀ o, st2.work.getD o WSlot.clear = WSlot.clear →
    st.work.getD o WSlot.clear = WSlot.clear
  frame : ∀ o, o ≠ f → st.work.getD o WSlot.clear ≠ WSlot.clear →
    st2.work.getD o WSlot.clear = st.work.getD o WSlot.clear
  markF : st2.work.getD f WSlot.clear ≠ WSlot.clear
  cnt : clearCount st2.work ≤ clearCount st.work

theorem tfacts_id (st : MState) (f : Nat)
    (h : st.work.getD f WSlot.clear ≠ WSlot.clear) : TFacts st st f :=
  { len := rfl
    impFromEq := rfl
    clearMono := fun _ hc => hc
    frame := fun _ _ _ => rfl
    markF := h
    cnt := le_refl _ }

theorem tfacts_trans {st st2 st3 : MState} {f : Nat} (h1 : TFacts st st2 f)
    (h2 : TFacts st2 st3 f) : TFacts st st3 f :=
  { len := h2.len.trans h1.len
    impFromEq := h2.impFromEq.trans h1.impFromEq
    clearMono := fun o hc => h1.clearMono o (h2.clearMono o hc)
    frame := fun o hof hm =>
      (h2.frame o hof (by rw [h1.frame o hof hm]; exact hm)).trans (h1.frame o hof hm)
    markF := h2.markF
    cnt := le_trans h2.cnt h1.cnt }

theorem workInsert_getD_f (st : MState) (f r : Nat) (_hrf : r ≠ f)
    (hflen : f < st.work.length) :
    (workInsert st f r).work.getD f WSlot.clear = WSlot.ptr r := by
  show ((st.work.set r (st.work.getD f WSlot.clear)).set f
    (WSlot.ptr r)).getD f WSlot.clear = WSlot.ptr r
  exact getD_set_self _ _ _ _ (by rw [List.length_set]; exact hflen)

theorem workInsert_getD_other (st : MState) (f r o : Nat) (hor : o ≠ r) (hof : o ≠ f) :
    (workInsert st f r).work.getD o WSlot.clear = st.work.getD o WSlot.clear := by
  show ((st.work.set r (st.work.getD f WSlot.clear)).set f
    (WSlot.ptr r)).getD o WSlot.clear = st.work.getD o WSlot.clear
  rw [getD_set_ne _ _ _ _ _ (fun hc => hof hc.symm),
    getD_set_ne _ _ _ _ _ (fun hc => hor hc.symm)]

theorem workInsert_clearCount (st : MState) (f r : Nat) (hrf : r ≠ f)
    (hrlen : r < st.work.length) (hrc : st.work.getD r WSlot.clear = WSlot.clear)
    (hfm : st.work.getD f WSlot.clear ≠ WSlot.clear) :
    clearCount (workInsert st f r).work + 1 = clearCount st.work := by
  show clearCount ((st.work.set r (st.work.getD f WSlot.clear)).set f (WSlot.ptr r)) + 1 =
    clearCount st.work
  rw [clearCount_set_keep _ f (WSlot.ptr r)
    (by rw [getD_set_ne _ _ _ _ _ hrf]; exact hfm) (by simp)]
  exact clearCount_set_fill _ r _ hrlen hrc hfm

theorem tfacts_insert {st st3 : MState} {f r : Nat} (hrf : r ≠ f)
    (hrlen : r < st.work.length) (hfm : st.work.getD f WSlot.clear ≠ WSlot.clear)
    (hrc : st.work.getD r WSlot.clear = WSlot.clear)
    (h3 : TFacts (workInsert st f r) st3 r) : TFacts st st3 f := by
  have hflen : f < st.work.length := getD_ne_default_lt _ _ _ hfm
  refine
    { len := by rw [h3.len, workInsert_length]
      impFromEq := h3.impFromEq.trans (workInsert_impFrom st f r)
      clearMono := ?_
      frame := ?_
      markF := ?_
      cnt := ?_ }
  · intro o hc
    have hcI := h3.clearMono o hc
    by_cases hor : o = r
    · rw [hor, workInsert_work_r st f r hrf hrlen] at hcI
      exact absurd hcI hfm
    · by_cases hof : o = f
      · rw [hof, workInsert_getD_f st f r hrf hflen] at hcI
        exact absurd hcI (by simp)
      · rw [workInsert_getD_other st f r o hor hof] at hcI
        exact hcI
  · intro o hof hm
    have hor : o ≠ r := by
      intro hc
      rw [hc, hrc] at hm
      exact hm rfl
    rw [h3.frame o hor (by rw [workInsert_getD_other st f r o hor hof]; exact hm),
      workInsert_getD_other st f r o hor hof]
  · have := h3.frame f (fun hc => hrf hc.symm)
      (by rw [workInsert_getD_f st f r hrf hflen]; simp)
    rw [this, workInsert_getD_f st f r hrf hflen]
    simp
  · have h1 := workInsert_clearCount st f r hrf hrlen hrc hfm
    have h2 := h3.cnt
    omega

/-- `recFn` (the recursion with the given fuel) completes whenever fewer
than `fuel` slots are clear. -/
def TSpec (g : Graph) (fuel : Nat) (recFn : MState → Nat → Option MState) : Prop :=
  ∀ st r, st.work.length = g.n → ImpRange g st → selfRefFree g st = true → r < g.n →
    st.work.getD r WSlot.clear ≠ WSlot.clear → clearCount st.work < fuel →
    ∃ st2, recFn st r = some st2 ∧ TFacts st st2 r

theorem walkRefs_total (g : Graph) (buildL : Bool)
    (recFn : MState → Nat → Option MState) (fuel : Nat)
    (Hrec : TSpec g fuel recFn)
    (Hid : buildL = false → ∀ st r st2, st.work.length = g.n → ImpRange g st →
      r < g.n → st.work.getD r WSlot.clear ≠ WSlot.clear →
      recFn st r = some st2 → st2 = st)
    (f : Nat) :
    ∀ refs st, st.work.length = g.n → ImpRange g st → selfRefFree g st = true →
      f < g.n → st.work.getD f WSlot.clear ≠ WSlot.clear →
      clearCount st.work < fuel + 1 →
      (∀ r ∈ refs, r < g.n) → (∀ r ∈ refs, r ≠ f) →
      ∃ st2, walkRefs recFn buildL f refs st = some st2 ∧ TFacts st st2 f := by
  intro refs
  induction refs with
  | nil =>
    intro st _ _ _ _ hfm _ _ _
    exact ⟨st, rfl, tfacts_id st f hfm⟩
  | cons r rs ih =>
    intro st hlen himp hsrf hfn hfm hcnt hrange hne
    have hrn : r < g.n := hrange r (List.mem_cons_self _ _)
    have hrf : r ≠ f := hne r (List.mem_cons_self _ _)
    rw [walkRefs, if_neg hrf]
    cases hwr : st.work.getD r WSlot.clear with
    | clear =>
      have hrlen : r < st.work.length := by rw [hlen]; exact hrn
      have hcntI := workInsert_clearCount st f r hrf hrlen hwr hfm
      have hcall := Hrec (workInsert st f r) r
        (by rw [workInsert_length]; exact hlen)
        (by
          intro s p hp
          rw [workInsert_impFrom] at hp
          exact himp s p hp)
        (by rw [selfRefFree_congr (workInsert_impFrom st f r)]; exact hsrf)
        hrn
        (by rw [workInsert_work_r st f r hrf hrlen]; exact hfm)
        (by omega)
      rcases hcall with ⟨st3, hsome3, TF3⟩
      rw [hsome3]
      have TFc : TFacts st st3 f := tfacts_insert hrf hrlen hfm hwr TF3
      cases buildL with
      | true =>
        have hrest := ih st3
          (by rw [TFc.len]; exact hlen)
          (by
            intro s p hp
            rw [TFc.impFromEq] at hp
            exact himp s p hp)
          (by rw [selfRefFree_congr TFc.impFromEq]; exact hsrf)
          hfn TFc.markF
          (by
            have := TFc.cnt
            omega)
          (fun x hx => hrange x (List.mem_cons_of_mem _ hx))
          (fun x hx => hne x (List.mem_cons_of_mem _ hx))
        rcases hrest with ⟨st4, hsome4, TF4⟩
        exact ⟨st4, by dsimp only; exact hsome4, tfacts_trans TFc TF4⟩
      | false =>
        have hid : st3 = workInsert st f r :=
          Hid rfl (workInsert st f r) r st3
            (by rw [workInsert_length]; exact hlen)
            (by
              intro s p hp
              rw [workInsert_impFrom] at hp
              exact himp s p hp)
            hrn
            (by rw [workInsert_work_r st f r hrf hrlen]; exact hfm)
            hsome3
        have hback : workRestore st3 f r = st := by
          rw [hid]
          exact workRestore_workInsert st f r hrf hrlen
            (by rw [hlen]; exact hfn) hwr
        have hrest := ih st hlen himp hsrf hfn hfm hcnt
          (fun x hx => hrange x (List.mem_cons_of_mem _ hx))
          (fun x hx => hne x (List.mem_cons_of_mem _ hx))
        rcases hrest with ⟨st4, hsome4, TF4⟩
        refine ⟨st4, ?_, TF4⟩
        dsimp only
        rw [hback]
        exact hsome4
    | busy =>
      exact ih st hlen himp hsrf hfn hfm hcnt
        (fun x hx => hrange x (List.mem_cons_of_mem _ hx))
        (fun x hx => hne x (List.mem_cons_of_mem _ hx))
    | ptr o =>
      exact ih st hlen himp hsrf hfn hfm hcnt
        (fun x hx => hrange x (List.mem_cons_of_mem _ hx))
        (fun x hx => hne x (List.mem_cons_of_mem _ hx))

theorem walkSlots_total (g : Graph) (hwf : graphWF g = true) (doExp buildL : Bool)
    (recFn : MState → Nat → Option MState) (fuel : Nat)
    (Hrec : TSpec g fuel recFn)
    (Hid : buildL = false → ∀ st r st2, st.work.length = g.n → ImpRange g st →
      r < g.n → st.work.getD r WSlot.clear ≠ WSlot.clear →
      recFn st r = some st2 → st2 = st)
    (f : Nat) :
    ∀ ss st, st.work.length = g.n → ImpRange g st → selfRefFree g st = true →
      f < g.n → st.work.getD f WSlot.clear ≠ WSlot.clear →
      clearCount st.work < fuel + 1 →
      (∀ s ∈ ss, s ∈ (if doExp then g.exps.getD f [] else g.imps.getD f [])) →
      ∃ st2, walkSlots g recFn doExp buildL f ss st = some st2 ∧ TFacts st st2 f := by
  intro ss
  induction ss with
  | nil =>
    intro st _ _ _ _ hfm _ _
    exact ⟨st, rfl, tfacts_id st f hfm⟩
  | cons s rest ih =>
    intro st hlen himp hsrf hfn hfm hcnt hss
    have hrefs := walkRefs_total g buildL recFn fuel Hrec Hid f
      (refsFor g st doExp s) st hlen himp hsrf hfn hfm hcnt
      (refsFor_lt hwf himp doExp s)
      (selfRefFree_no_self hsrf doExp f hfn s (hss s (List.mem_cons_self _ _)))
    rcases hrefs with ⟨stMid, hsomeM, TFM⟩
    have hrest := ih stMid
      (by rw [TFM.len]; exact hlen)
      (by
        intro t p hp
        rw [TFM.impFromEq] at hp
        exact himp t p hp)
      (by rw [selfRefFree_congr TFM.impFromEq]; exact hsrf)
      hfn TFM.markF
      (by
        have := TFM.cnt
        omega)
      (fun t ht => hss t (List.mem_cons_of_mem _ ht))
    rcases hrest with ⟨st2, hsome2, TF2⟩
    refine ⟨st2, ?_, tfacts_trans TFM TF2⟩
    rw [walkSlots, hsomeM]
    exact hsome2

theorem depwalk_rec_TSpec (g : Graph) (hwf : graphWF g = true) (doExp buildL : Bool) :
    ∀ fuel, TSpec g fuel (depwalk_rec g doExp buildL fuel) := by
  intro fuel
  induction fuel with
  | zero =>
    intro st r _ _ _ _ _ hcnt
    exact absurd hcnt (Nat.not_lt_zero _)
  | succ fuel ih =>
    intro st r hlen himp hsrf hrn hrm hcnt
    have := walkSlots_total g hwf doExp buildL (depwalk_rec g doExp buildL fuel) fuel ih
      (fun hb st3 x st4 hl hi hx hw hh => by
        subst hb
        exact depwalk_rec_direct_id g hwf doExp fuel st3 x st4 hl hi hx hw hh)
      r (if doExp then g.exps.getD r [] else g.imps.getD r []) st hlen himp hsrf hrn
      hrm hcnt (fun s hs => hs)
    rcases this with ⟨st2, hsome, TF⟩
    exact ⟨st2, by rw [depwalk_rec]; exact hsome, TF⟩

/-! ### Work-list release and the chain as a list -/

theorem nodup_lt_length_le {L : List Nat} (hnd : L.Nodup) {n : Nat}
    (hlt : ∀ x ∈ L, x < n) : L.length ≤ n := by
  have h1 : L.toFinset.card = L.length := List.toFinset_card_of_nodup hnd
  have h2 : L.toFinset ⊆ Finset.range n := by
    intro x hx
    rw [List.mem_toFinset] at hx
    exact Finset.mem_range.mpr (hlt x hx)
  have h3 := Finset.card_le_card h2
  rw [h1, Finset.card_range] at h3
  exact h3

theorem workListRelease_chain : ∀ (L : List Nat) (st : MState) (a : Nat),
    ChainTo st a L → L.Nodup → ∀ fuel, L.length ≤ fuel →
      (workListRelease fuel st a).anchor = st.anchor ∧
      (workListRelease fuel st a).impFrom = st.impFrom ∧
      (workListRelease fuel st a).appSet = st.appSet ∧
      (workListRelease fuel st a).optSet = st.optSet ∧
      (workListRelease fuel st a).work.length = st.work.length ∧
      ∀ o, (workListRelease fuel st a).work.getD o WSlot.clear =
        if o ∈ L then WSlot.clear else st.work.getD o WSlot.clear := by
  intro L
  induction L with
  | nil =>
    intro st a hch
    cases hch
  | cons x L ih =>
    intro st a hch hnd fuel hfuel
    cases fuel with
    | zero => simp at hfuel
    | succ fuel =>
      cases hch with
      | last _ hb =>
        have heq : workListRelease (fuel + 1) st x = workClear1 st x := by
          rw [workListRelease, hb]
        rw [heq]
        have halen : x < st.work.length :=
          getD_ne_default_lt _ _ _ (by rw [hb]; simp)
        refine ⟨rfl, rfl, rfl, rfl, List.length_set .., ?_⟩
        intro o
        by_cases hoa : o = x
        · subst hoa
          rw [if_pos (List.mem_singleton.mpr rfl)]
          show (st.work.set o WSlot.clear).getD o WSlot.clear = WSlot.clear
          exact getD_set_self _ _ _ _ halen
        · rw [if_neg (by simpa using hoa)]
          show (st.work.set x WSlot.clear).getD o WSlot.clear = st.work.getD o WSlot.clear
          exact getD_set_ne _ _ _ _ _ (fun hc => hoa hc.symm)
      | cons _ b _ hb hbl =>
        rw [List.nodup_cons] at hnd
        have halen : x < st.work.length :=
          getD_ne_default_lt _ _ _ (by rw [hb]; simp)
        have hch2 : ChainTo (workClear1 st x) b L := by
          refine chainTo_congr hbl ?_
          intro y hy
          show (st.work.set x WSlot.clear).getD y WSlot.clear = st.work.getD y WSlot.clear
          exact getD_set_ne _ _ _ _ _ (fun hc => hnd.1 (hc ▸ hy))
        have heq : workListRelease (fuel + 1) st x =
            workListRelease fuel (workClear1 st x) b := by
          rw [workListRelease, hb]
        rw [heq]
        have hrec := ih (workClear1 st x) b hch2 hnd.2 fuel (by simpa using hfuel)
        refine ⟨hrec.1, hrec.2.1, hrec.2.2.1, hrec.2.2.2.1, ?_, ?_⟩
        · rw [hrec.2.2.2.2.1]
          exact List.length_set ..
        · intro o
          rw [hrec.2.2.2.2.2 o]
          by_cases hoL : o ∈ L
          · rw [if_pos hoL, if_pos (List.mem_cons_of_mem _ hoL)]
          · rw [if_neg hoL]
            by_cases hoa : o = x
            · subst hoa
              rw [if_pos (List.mem_cons_self _ _)]
              show (st.work.set o WSlot.clear).getD o WSlot.clear = WSlot.clear
              exact getD_set_self _ _ _ _ halen
            · rw [if_neg (by
                intro hc
                rcases List.mem_cons.mp hc with hc | hc
                · exact hoa hc
                · exact hoL hc)]
              show (st.work.set x WSlot.clear).getD o WSlot.clear =
                st.work.getD o WSlot.clear
              exact getD_set_ne _ _ _ _ _ (fun hc => hoa hc.symm)

theorem chainList_of_chainTo : ∀ (L : List Nat) (st : MState) (a : Nat),
    ChainTo st a L → ∀ fuel, L.length ≤ fuel → chainList fuel st a = L := by
  intro L
  induction L with
  | nil =>
    intro st a hch
    cases hch
  | cons x L ih =>
    intro st a hch fuel hfuel
    cases fuel with
    | zero => simp at hfuel
    | succ fuel =>
      cases hch with
      | last _ hb =>
        rw [chainList, hb]
      | cons _ b _ hb hbl =>
        rw [chainList, hb]
        show x :: chainList fuel st b = x :: L
        rw [ih st b hbl fuel (by simpa using hfuel)]

/-! ### `depwalk` in list-building mode: the work chain is exactly the
closure of the start object under followed cross references. -/

theorem depwalk_build_spec (g : Graph) (hwf : graphWF g = true) (st : MState)
    (f : Nat) (doExp : Bool) (hlen : st.work.length = g.n) (himp : ImpRange g st)
    (hclear : ∀ o, st.work.getD o WSlot.clear = WSlot.clear) (hf : f < g.n) :
    ∀ st2, depwalk g st f doExp true = some st2 →
      st2.anchor = st.anchor ∧ st2.impFrom = st.impFrom ∧ st2.appSet = st.appSet ∧
      st2.optSet = st.optSet ∧ st2.work.length = st.work.length ∧
      ∃ L, WorkChain st2 f L ∧
        ∀ o, o ∈ L ↔ Relation.ReflTransGen (wstep g st doExp) f o := by
  have hflen : f < st.work.length := by rw [hlen]; exact hf
  intro st2 h
  unfold depwalk at h
  rw [if_pos (hclear f)] at h
  cases hrec : depwalk_rec g doExp true g.n (workBusy st f) f with
  | none =>
    rw [hrec] at h
    exact absurd h (by simp)
  | some st3 =>
    rw [hrec] at h
    have h2 : st3 = st2 := by simpa using h
    subst h2
    have hspec := depwalk_rec_build g hwf doExp g.n (workBusy st f) f
      (by show (st.work.set f WSlot.busy).length = g.n; rw [List.length_set]; exact hlen)
      himp hf
      (by
        show (st.work.set f WSlot.busy).getD f WSlot.clear ≠ WSlot.clear
        rw [getD_set_self _ _ _ _ hflen]
        simp)
      st3 hrec
    have hbw := hspec.1
    have hdw := hspec.2
    have himpEq3 : st3.impFrom = st.impFrom := hbw.impFromEq
    have hwc0 : WorkChain (workBusy st f) f [f] := by
      refine ⟨ChainTo.last f ?_, List.nodup_singleton f, ?_⟩
      · show (st.work.set f WSlot.busy).getD f WSlot.clear = WSlot.busy
        exact getD_set_self _ _ _ _ hflen
      · intro o
        constructor
        · intro hm
          by_contra hno
          have hof : o ≠ f := by simpa using hno
          refine hm ?_
          show (st.work.set f WSlot.busy).getD o WSlot.clear = WSlot.clear
          rw [getD_set_ne _ _ _ _ _ (fun hc => hof hc.symm)]
          exact hclear o
        · intro hm
          have hof : o = f := by simpa using hm
          subst hof
          show (st.work.set o WSlot.busy).getD o WSlot.clear ≠ WSlot.clear
          rw [getD_set_self _ _ _ _ hflen]
          simp
    rcases hbw.chain f [f] hwc0 (List.mem_singleton.mpr rfl) with
      ⟨L, hwcL, hsubL, hnewL⟩
    refine ⟨hbw.anchorEq, himpEq3, hbw.appSetEq, hbw.optSetEq,
      by rw [hbw.len]; exact List.length_set .., L, hwcL, ?_⟩
    have hfL : f ∈ L := hsubL f (List.mem_singleton.mpr rfl)
    have hdone : ∀ o ∈ L, DoneW g st3 doExp o := by
      intro o hoL
      rcases hnewL o hoL with hof | hcl
      · have hof2 : o = f := by simpa using hof
        subst hof2
        exact hdw
      · exact (hbw.newMarks o hcl ((hwcL.2.2 o).mpr hoL)).2
    intro o
    constructor
    · intro hoL
      rcases hnewL o hoL with hof | hcl
      · have hof2 : o = f := by simpa using hof
        subst hof2
        exact Relation.ReflTransGen.refl
      · exact (hbw.newMarks o hcl ((hwcL.2.2 o).mpr hoL)).1
    · intro hreach
      induction hreach with
      | refl => exact hfL
      | tail hprev hstep ih =>
        refine (hwcL.2.2 _).mp ?_
        refine hdone _ ih _ ?_
        rw [wstep_congr himpEq3]
        exact hstep

/-- C6 helper state and graph for concrete evaluation. -/
def walkCexG : Graph := { imps := [[]], exps := [[]], expHead := [] }

def walkCexSt : MState :=
  { anchor := [none], impFrom := [], appSet := [], optSet := [],
    work := [WSlot.clear] }

set_option maxHeartbeats 1000000 in
/-- C6: starting from a state where every `work` scratch slot is clear, a
completed direct-action traversal leaves every `work` slot clear again, and
a completed list-building traversal followed by `depwalkListRelease` leaves
every `work` slot clear again — for every start object and both walk
modes (exports or imports). -/
theorem depwalk_work_clear (g : Graph) (hwf : graphWF g = true) (st : MState)
    (f : Nat) (doExp : Bool) (hlen : st.work.length = g.n) (himp : ImpRange g st)
    (hclear : ∀ o, st.work.getD o WSlot.clear = WSlot.clear) (hf : f < g.n) :
    (∀ st2, depwalk g st f doExp false = some st2 →
      ∀ o, st2.work.getD o WSlot.clear = WSlot.clear) ∧
    (∀ st2, depwalk g st f doExp true = some st2 →
      ∀ o, (depwalkListRelease st2 f).work.getD o WSlot.clear = WSlot.clear) := by
  constructor
  · intro st2 h o
    rw [depwalk_direct_id g hwf doExp st f st2 hlen himp hf h]
    exact hclear o
  · intro st2 h o
    rcases depwalk_build_spec g hwf st f doExp hlen himp hclear hf st2 h with
      ⟨_, _, _, _, hlen2, L, hwc, hiff⟩
    rcases hwc with ⟨hch, hnd, hmk⟩
    have hmemlt : ∀ x ∈ L, x < st2.work.length := by
      intro x hx
      exact getD_ne_default_lt _ _ _ ((hmk x).mpr hx)
    have hLlen : L.length ≤ st2.work.length := nodup_lt_length_le hnd hmemlt
    have hrel := workListRelease_chain L st2 f hch hnd (st2.work.length + 1)
      (by omega)
    show (workListRelease (st2.work.length + 1) st2 f).work.getD o WSlot.clear =
      WSlot.clear
    rw [hrel.2.2.2.2.2 o]
    by_cases hoL : o ∈ L
    · rw [if_pos hoL]
    · rw [if_neg hoL]
      by_contra hne
      exact hoL ((hmk o).mp hne)

/-- C6 witness: the property evaluated on a concrete one-object graph. -/
theorem depwalk_work_clear_witness :
    (∀ st2, depwalk walkCexG walkCexSt 0 true false = some st2 →
      ∀ o, st2.work.getD o WSlot.clear = WSlot.clear) ∧
    (∀ st2, depwalk walkCexG walkCexSt 0 true true = some st2 →
      ∀ o, (depwalkListRelease st2 0).work.getD o WSlot.clear = WSlot.clear) :=
  depwalk_work_clear walkCexG (by decide) walkCexSt 0 true rfl
    (by intro s p hp; simp [walkCexSt, List.getD_nil] at hp)
    (by intro o; cases o <;> rfl) (by decide)

set_option maxHeartbeats 1000000 in
/-- C10 (amended): under the self-reference-free precondition every cross
reference followed while expanding a node names an object different from
that node, so the `ref->obj != f` assertion never fires and `depwalk`
completes with a result, in every mode. -/
theorem depwalk_total (g : Graph) (hwf : graphWF g = true) (st : MState) (f : Nat)
    (doExp buildL : Bool) (hlen : st.work.length = g.n) (himp : ImpRange g st)
    (hsrf : selfRefFree g st = true) (hf : f < g.n)
    (hfc : st.work.getD f WSlot.clear = WSlot.clear) :
    (depwalk g st f doExp buildL).isSome = true := by
  have hflen : f < st.work.length := by rw [hlen]; exact hf
  unfold depwalk
  rw [if_pos hfc]
  have h1 : clearCount (st.work.set f WSlot.busy) + 1 = clearCount st.work :=
    clearCount_set_fill st.work f WSlot.busy hflen hfc (by simp)
  have h2 : clearCount st.work ≤ st.work.length := List.countP_le_length _
  have hT := depwalk_rec_TSpec g hwf doExp buildL g.n (workBusy st f) f
    (by show (st.work.set f WSlot.busy).length = g.n; rw [List.length_set]; exact hlen)
    himp hsrf hf
    (by
      show (st.work.set f WSlot.busy).getD f WSlot.clear ≠ WSlot.clear
      rw [getD_set_self _ _ _ _ hflen]
      simp)
    (by
      show clearCount (st.work.set f WSlot.busy) < g.n
      omega)
  rcases hT with ⟨st2, hsome, _⟩
  rw [hsome]
  simp

/-- C10 counterexample graph: object 1 both exports and imports symbol 0
and is symbol 0's first exporter and sole linked importer — a self
reference; object 0 references nothing. -/
def srfCexG : Graph := { imps := [[], [0]], exps := [[], [0]], expHead := [some 1] }

def srfCexSt : MState :=
  { anchor := [some LS.app, some LS.app], impFrom := [[(1, 0)]],
    appSet := [0, 1], optSet := [], work := [WSlot.clear, WSlot.clear] }

/-- C10 counterexample: without the self-reference-free precondition the
traversal does not necessarily abort — here the precondition is violated
(by object 1) yet walks starting at object 0 complete in both modes. -/
theorem depwalk_noabort_cex :
    selfRefFree srfCexG srfCexSt = false ∧
    (depwalk srfCexG srfCexSt 0 true true).isSome = true ∧
    (depwalk srfCexG srfCexSt 0 false false).isSome = true := by
  refine ⟨by decide, by decide, by decide⟩

/-- C10 witness: the totality theorem applied to a concrete self-reference
free graph and state. -/
theorem depwalk_total_witness :
    (depwalk walkCexG walkCexSt 0 true true).isSome = true :=
  depwalk_total walkCexG (by decide) walkCexSt 0 true true rfl
    (by intro s p hp; simp [walkCexSt, List.getD_nil] at hp)
    (by decide) (by decide) rfl

/-! ### `unlinkObj` (C2)

`doUnlink` splices each import XRef of the object out of its symbol's
importer chain (the C asserts the predecessor is found), splices the
object out of its link set's member list (`*pl` is asserted) and clears
its anchor; `checkSysLinkSet` scans the work list for a member of the
Application set; `checkSanity` asserts that the importer chains of all
exported symbols of unlinked members are empty.  An XRef is identified
by (owner object, import slot) — pointer identity in the C. -/

def xrefRemove (x : Nat × Nat) : List (Nat × Nat) → Option (List (Nat × Nat))
  | [] => none
  | y :: ys => if y = x then some ys else (xrefRemove x ys).map (fun l => y :: l)

def setRemove (f : Nat) : List Nat → Option (List Nat)
  | [] => none
  | y :: ys => if y = f then some ys else (setRemove f ys).map (fun l => y :: l)

/-- The importer-splice loop of `doUnlink` over the object's import
slots (`i` is the slot index of the first element of the list). -/
def doUnlinkImports (f : Nat) : List Nat → Nat → List (List (Nat × Nat)) →
    Option (List (List (Nat × Nat)))
  | [], _, acc => some acc
  | s :: ss, i, acc =>
    match xrefRemove (f, i) (acc.getD s []) with
    | none => none
    | some l => doUnlinkImports f ss (i + 1) (acc.set s l)

/-- `doUnlink`: an unanchored object dereferences a null anchor
(`f->link.anchor->set`), modelled as `none`. -/
def doUnlink (g : Graph) (st : MState) (f : Nat) : Option MState :=
  match doUnlinkImports f (g.imps.getD f []) 0 st.impFrom with
  | none => none
  | some imp2 =>
    match st.anchor.getD f none with
    | none => none
    | some LS.app =>
      match setRemove f st.appSet with
      | none => none
      | some l =>
        some { st with impFrom := imp2, appSet := l,
                       anchor := st.anchor.set f none }
    | some LS.opt =>
      match setRemove f st.optSet with
      | none => none
      | some l =>
        some { st with impFrom := imp2, optSet := l,
                       anchor := st.anchor.set f none }

/-- `workListIterate(f, doUnlink, 0)` over the built work list. -/
def foldUnlink (g : Graph) : List Nat → MState → Option MState
  | [], st => some st
  | f :: fs, st =>
    match doUnlink g st f with
    | none => none
    | some st2 => foldUnlink g fs st2

/-- `workListIterate(f, checkSanity, 0)`: every exported symbol of every
member must have an empty importer chain. -/
def checkSanityAll (g : Graph) (st : MState) (L : List Nat) : Bool :=
  L.all fun f => (g.exps.getD f []).all fun s => decide (st.impFrom.getD s [] = [])

/-- `unlinkObj`: build the export-closure work list, reject when a member
belongs to the Application link set, otherwise unlink every member and
check sanity; release the work list and return the reject flag. -/
def unlinkObj (g : Graph) (st : MState) (f : Nat) : Option (Bool × MState) :=
  match depwalk g st f true true with
  | none => none
  | some st1 =>
    let L := chainList (st1.work.length + 1) st1 f
    if L.any (fun o => decide (st1.anchor.getD o none = some LS.app)) then
      some (true, depwalkListRelease st1 f)
    else
      match foldUnlink g L st1 with
      | none => none
      | some st2 =>
        if checkSanityAll g st2 L then some (false, depwalkListRelease st2 f)
        else none

theorem refsFor_exp (g : Graph) (st : MState) (s : Nat) :
    refsFor g st true s = (st.impFrom.getD s []).map Prod.fst := rfl

theorem wstep_exp (g : Graph) (st : MState) (x y : Nat) :
    wstep g st true x y ↔
      ∃ s ∈ g.exps.getD x [], y ∈ (st.impFrom.getD s []).map Prod.fst :=
  Iff.rfl

theorem list_eq_of_getD {α : Type} (l1 l2 : List α) (d : α)
    (hlen : l1.length = l2.length) (h : ∀ i, l1.getD i d = l2.getD i d) :
    l1 = l2 := by
  apply List.ext_getElem hlen
  intro i h1 h2
  have hi := h i
  rwa [List.getD_eq_getElem l1 d h1, List.getD_eq_getElem l2 d h2] at hi

theorem mstate_ext {st2 st : MState} (h1 : st2.anchor = st.anchor)
    (h2 : st2.impFrom = st.impFrom) (h3 : st2.appSet = st.appSet)
    (h4 : st2.optSet = st.optSet) (h5 : st2.work = st.work) : st2 = st := by
  cases st2
  cases st
  dsimp only at h1 h2 h3 h4 h5
  rw [h1, h2, h3, h4, h5]

theorem xrefRemove_spec (x : Nat × Nat) : ∀ l : List (Nat × Nat), l.Nodup → x ∈ l →
    ∃ l', xrefRemove x l = some l' ∧ l'.Nodup ∧
      ∀ p, p ∈ l' ↔ p ∈ l ∧ p ≠ x := by
  intro l
  induction l with
  | nil =>
    intro _ h
    simp at h
  | cons a l ih =>
    intro hnd hx
    rw [List.nodup_cons] at hnd
    by_cases hax : a = x
    · subst hax
      refine ⟨l, by simp [xrefRemove], hnd.2, ?_⟩
      intro p
      constructor
      · intro hp
        refine ⟨List.mem_cons_of_mem _ hp, ?_⟩
        intro hpa
        exact hnd.1 (hpa ▸ hp)
      · rintro ⟨hp, hpa⟩
        rcases List.mem_cons.mp hp with h | h
        · exact absurd h hpa
        · exact h
    · have hxl : x ∈ l := by
        rcases List.mem_cons.mp hx with h | h
        · exact absurd h.symm hax
        · exact h
      rcases ih hnd.2 hxl with ⟨l', hl', hnd', hmem⟩
      refine ⟨a :: l', by simp [xrefRemove, hax, hl'], ?_, ?_⟩
      · rw [List.nodup_cons]
        exact ⟨fun hc => hnd.1 ((hmem a).mp hc).1, hnd'⟩
      · intro p
        simp only [List.mem_cons]
        constructor
        · rintro (h | h)
          · exact ⟨Or.inl h, h ▸ hax⟩
          · rcases (hmem p).mp h with ⟨h1, h2⟩
            exact ⟨Or.inr h1, h2⟩
        · rintro ⟨h | h, h2⟩
          · exact Or.inl h
          · exact Or.inr ((hmem p).mpr ⟨h, h2⟩)

theorem setRemove_spec (f : Nat) : ∀ l : List Nat, f ∈ l →
    ∃ l', setRemove f l = some l' ∧ ∀ y, y ≠ f → (y ∈ l' ↔ y ∈ l) := by
  intro l
  induction l with
  | nil =>
    intro h
    simp at h
  | cons a l ih =>
    intro hf
    by_cases haf : a = f
    · subst haf
      refine ⟨l, by simp [setRemove], ?_⟩
      intro y hy
      simp [List.mem_cons, hy]
    · have hfl : f ∈ l := by
        rcases List.mem_cons.mp hf with h | h
        · exact absurd h.symm haf
        · exact h
      rcases ih hfl with ⟨l', hl', hmem⟩
      refine ⟨a :: l', by simp [setRemove, haf, hl'], ?_⟩
      intro y hy
      simp only [List.mem_cons]
      rw [hmem y hy]

theorem doUnlinkImports_spec (o : Nat) :
    ∀ (ss : List Nat) (i0 : Nat) (acc : List (List (Nat × Nat))),
    (∀ s, (acc.getD s []).Nodup) →
    (∀ j, j < ss.length → (o, i0 + j) ∈ acc.getD (ss.getD j 0) []) →
    (∀ s p, p ∈ acc.getD s [] → p.1 = o → i0 ≤ p.2 → p.2 < i0 + ss.length →
      s = ss.getD (p.2 - i0) 0) →
    ∃ acc2, doUnlinkImports o ss i0 acc = some acc2 ∧
      (∀ s, (acc2.getD s []).Nodup) ∧
      (∀ s p, p ∈ acc2.getD s [] ↔ p ∈ acc.getD s [] ∧
        ¬(p.1 = o ∧ i0 ≤ p.2 ∧ p.2 < i0 + ss.length)) := by
  intro ss
  induction ss with
  | nil =>
    intro i0 acc hnd _ _
    refine ⟨acc, rfl, hnd, ?_⟩
    intro s p
    constructor
    · intro hp
      refine ⟨hp, ?_⟩
      rintro ⟨_, h1, h2⟩
      simp only [List.length_nil] at h2
      omega
    · rintro ⟨hp, _⟩
      exact hp
  | cons s0 ss ih =>
    intro i0 acc hnd hpre hown
    simp only [List.length_cons] at hpre hown ⊢
    have h0 : (o, i0) ∈ acc.getD s0 [] := by
      have := hpre 0 (by omega)
      simpa using this
    rcases xrefRemove_spec (o, i0) (acc.getD s0 []) (hnd s0) h0 with
      ⟨l', hl', hnd', hmem'⟩
    have hs0len : s0 < acc.length := by
      apply getD_ne_default_lt acc [] s0
      intro hc
      rw [hc] at h0
      simp at h0
    have hwacc : ∀ s, (acc.set s0 l').getD s [] =
        if s = s0 then l' else acc.getD s [] := by
      intro s
      by_cases hss : s = s0
      · subst hss
        rw [if_pos rfl]
        exact getD_set_self _ _ _ _ hs0len
      · rw [if_neg hss]
        exact getD_set_ne _ _ _ _ _ (fun hc => hss hc.symm)
    have hndB : ∀ s, ((acc.set s0 l').getD s []).Nodup := by
      intro s
      rw [hwacc s]
      by_cases hss : s = s0
      · rw [if_pos hss]
        exact hnd'
      · rw [if_neg hss]
        exact hnd s
    have hmemB : ∀ s p, p ∈ (acc.set s0 l').getD s [] ↔
        p ∈ acc.getD s [] ∧ p ≠ (o, i0) := by
      intro s p
      rw [hwacc s]
      by_cases hss : s = s0
      · rw [if_pos hss, hss]
        exact hmem' p
      · rw [if_neg hss]
        constructor
        · intro hp
          refine ⟨hp, ?_⟩
          intro hc
          subst hc
          have h2 := hown s (o, i0) hp rfl (le_refl i0) (by simp)
          simp only [Nat.sub_self, List.getD_cons_zero] at h2
          exact hss h2
        · rintro ⟨hp, _⟩
          exact hp
    have hpre2 : ∀ j, j < ss.length →
        (o, i0 + 1 + j) ∈ (acc.set s0 l').getD (ss.getD j 0) [] := by
      intro j hj
      rw [hmemB]
      refine ⟨?_, ?_⟩
      · have h1 := hpre (j + 1) (by omega)
        rw [List.getD_cons_succ] at h1
        have h2 : i0 + (j + 1) = i0 + 1 + j := by omega
        rw [h2] at h1
        exact h1
      · intro hc
        rw [Prod.ext_iff] at hc
        have := hc.2
        simp only at this
        omega
    have hown2 : ∀ s p, p ∈ (acc.set s0 l').getD s [] → p.1 = o → i0 + 1 ≤ p.2 →
        p.2 < i0 + 1 + ss.length → s = ss.getD (p.2 - (i0 + 1)) 0 := by
      intro s p hp hpo h1 h2
      have hpacc := ((hmemB s p).mp hp).1
      have h3 := hown s p hpacc hpo (by omega) (by omega)
      have h4 : p.2 - i0 = (p.2 - (i0 + 1)) + 1 := by omega
      rw [h4, List.getD_cons_succ] at h3
      exact h3
    rcases ih (i0 + 1) (acc.set s0 l') hndB hpre2 hown2 with ⟨acc2, hacc2, hnd2, hmem2⟩
    refine ⟨acc2, ?_, hnd2, ?_⟩
    · rw [doUnlinkImports, hl']
      exact hacc2
    · intro s p
      rw [hmem2 s p, hmemB s p]
      constructor
      · rintro ⟨⟨hp, hne⟩, hnr⟩
        refine ⟨hp, ?_⟩
        rintro ⟨hpo, hge, hlt⟩
        by_cases hi : p.2 = i0
        · exact hne (Prod.ext_iff.mpr ⟨hpo, hi⟩)
        · exact hnr ⟨hpo, by omega, by omega⟩
      · rintro ⟨hp, hnr⟩
        have hne : p ≠ (o, i0) := by
          intro hc
          rw [Prod.ext_iff] at hc
          exact hnr ⟨hc.1, by omega, by omega⟩
        refine ⟨⟨hp, hne⟩, ?_⟩
        rintro ⟨hpo, hge, hlt⟩
        exact hnr ⟨hpo, by omega, by omega⟩

theorem foldUnlink_spec (g : Graph) (st0 : MState)
    (hent : ∀ s p, p ∈ st0.impFrom.getD s [] →
      p.2 < (g.imps.getD p.1 []).length ∧ (g.imps.getD p.1 []).getD p.2 0 = s) :
    ∀ (fs done : List Nat) (cur : MState),
    (done ++ fs).Nodup →
    (∀ o ∈ fs, ∀ i, i < (g.imps.getD o []).length →
      (o, i) ∈ st0.impFrom.getD ((g.imps.getD o []).getD i 0) []) →
    (∀ o ∈ fs, st0.anchor.getD o none = some LS.opt) →
    (∀ o ∈ fs, o ∈ st0.optSet) →
    (∀ s p, p ∈ cur.impFrom.getD s [] ↔ p ∈ st0.impFrom.getD s [] ∧ p.1 ∉ done) →
    (∀ s, (cur.impFrom.getD s []).Nodup) →
    (∀ o, o ∉ done → cur.anchor.getD o none = st0.anchor.getD o none) →
    (∀ o, o ∉ done → (o ∈ cur.optSet ↔ o ∈ st0.optSet)) →
    ∃ st2, foldUnlink g fs cur = some st2 ∧
      ∀ s p, p ∈ st2.impFrom.getD s [] ↔
        p ∈ st0.impFrom.getD s [] ∧ p.1 ∉ done ∧ p.1 ∉ fs := by
  intro fs
  induction fs with
  | nil =>
    intro done cur _ _ _ _ hIimp _ _ _
    refine ⟨cur, rfl, ?_⟩
    intro s p
    rw [hIimp s p]
    simp
  | cons o fs ih =>
    intro done cur hnd hlinked hopt hoptMem hIimp hIimpnd hIanch hIopt
    have hnd' := List.nodup_append.mp hnd
    have hodone : o ∉ done := fun hc => hnd'.2.2 hc (List.mem_cons_self _ _)
    have hduS := doUnlinkImports_spec o (g.imps.getD o []) 0 cur.impFrom hIimpnd
      (by
        intro j hj
        rw [hIimp]
        refine ⟨?_, hodone⟩
        have := hlinked o (List.mem_cons_self _ _) j hj
        simpa using this)
      (by
        intro s p hp hpo _ _
        have hp0 := ((hIimp s p).mp hp).1
        have h1 := (hent s p hp0).2
        rw [hpo] at h1
        rw [Nat.sub_zero]
        exact h1.symm)
    rcases hduS with ⟨imp2, himp2eq, himp2nd, himp2mem⟩
    have hanch : cur.anchor.getD o none = some LS.opt :=
      (hIanch o hodone).trans (hopt o (List.mem_cons_self _ _))
    have hoMem : o ∈ cur.optSet :=
      (hIopt o hodone).mpr (hoptMem o (List.mem_cons_self _ _))
    rcases setRemove_spec o cur.optSet hoMem with ⟨l', hl', hlmem⟩
    have hstep : doUnlink g cur o =
        some { cur with
          impFrom := imp2
          optSet := l'
          anchor := cur.anchor.set o none } := by
      rw [doUnlink, himp2eq, hanch, hl']
    have hIimp2 : ∀ s p,
        p ∈ ({ cur with
          impFrom := imp2
          optSet := l'
          anchor := cur.anchor.set o none } : MState).impFrom.getD s [] ↔
        p ∈ st0.impFrom.getD s [] ∧ p.1 ∉ done ++ [o] := by
      intro s p
      show p ∈ imp2.getD s [] ↔ _
      rw [himp2mem s p, hIimp s p]
      constructor
      · rintro ⟨⟨hp0, hpd⟩, hnr⟩
        refine ⟨hp0, ?_⟩
        intro hc
        rcases List.mem_append.mp hc with hc | hc
        · exact hpd hc
        · have hpo : p.1 = o := List.mem_singleton.mp hc
          have hlen := (hent s p hp0).1
          rw [hpo] at hlen
          exact hnr ⟨hpo, by omega, by omega⟩
      · rintro ⟨hp0, hc⟩
        have hpd : p.1 ∉ done := fun h => hc (List.mem_append.mpr (Or.inl h))
        have hpo : p.1 ≠ o := fun h =>
          hc (List.mem_append.mpr (Or.inr (List.mem_singleton.mpr h)))
        exact ⟨⟨hp0, hpd⟩, fun hr => hpo hr.1⟩
    have hrec := ih (done ++ [o])
      { cur with
        impFrom := imp2
        optSet := l'
        anchor := cur.anchor.set o none }
      (by
        rw [← List.append_cons] at *
        exact hnd)
      (fun o' ho' => hlinked o' (List.mem_cons_of_mem _ ho'))
      (fun o' ho' => hopt o' (List.mem_cons_of_mem _ ho'))
      (fun o' ho' => hoptMem o' (List.mem_cons_of_mem _ ho'))
      hIimp2
      (by
        intro s
        show (imp2.getD s []).Nodup
        exact himp2nd s)
      (by
        intro o' ho'
        have hoo : o' ≠ o := fun hc =>
          ho' (List.mem_append.mpr (Or.inr (List.mem_singleton.mpr hc)))
        have hod : o' ∉ done := fun hc => ho' (List.mem_append.mpr (Or.inl hc))
        show (cur.anchor.set o none).getD o' none = st0.anchor.getD o' none
        rw [getD_set_ne _ _ _ _ _ (fun hc => hoo hc.symm)]
        exact hIanch o' hod)
      (by
        intro o' ho'
        have hoo : o' ≠ o := fun hc =>
          ho' (List.mem_append.mpr (Or.inr (List.mem_singleton.mpr hc)))
        have hod : o' ∉ done := fun hc => ho' (List.mem_append.mpr (Or.inl hc))
        show o' ∈ l' ↔ o' ∈ st0.optSet
        rw [hlmem o' hoo]
        exact hIopt o' hod)
    rcases hrec with ⟨st2, hst2eq, hmemF⟩
    refine ⟨st2, ?_, ?_⟩
    · rw [foldUnlink, hstep]
      exact hst2eq
    · intro s p
      rw [hmemF s p]
      constructor
      · rintro ⟨h1, h2, h3⟩
        refine ⟨h1, fun hc => h2 (List.mem_append.mpr (Or.inl hc)), ?_⟩
        intro hc
        rcases List.mem_cons.mp hc with hc | hc
        · exact h2 (List.mem_append.mpr (Or.inr (List.mem_singleton.mpr hc)))
        · exact h3 hc
      · rintro ⟨h1, h2, h3⟩
        refine ⟨h1, ?_, fun hc => h3 (List.mem_cons_of_mem _ hc)⟩
        intro hc
        rcases List.mem_append.mp hc with hc | hc
        · exact h2 hc
        · exact h3 (List.mem_cons.mpr (Or.inl (List.mem_singleton.mp hc)))

/-- Decidable well-formedness of a fully linked state — what the link
driver establishes before any unlink command runs: clear `work` slots,
importer-chain entries that name real import slots of anchored objects,
duplicate-free chains, every anchored object's import XRef threaded on
its symbol's chain, and link-set membership matching the anchors. -/
def linkedWF (g : Graph) (st : MState) : Bool :=
  decide (st.work.length = g.n) &&
  decide (st.anchor.length = g.n) &&
  st.work.all (fun w => decide (w = WSlot.clear)) &&
  (List.range st.impFrom.length).all (fun s =>
    decide ((st.impFrom.getD s []).Nodup) &&
    (st.impFrom.getD s []).all (fun p =>
      decide (p.1 < g.n) &&
      decide (p.2 < (g.imps.getD p.1 []).length) &&
      decide ((g.imps.getD p.1 []).getD p.2 0 = s) &&
      decide (st.anchor.getD p.1 none ≠ none))) &&
  (List.range g.n).all (fun o =>
    decide (st.anchor.getD o none = none) ||
    (List.range (g.imps.getD o []).length).all (fun i =>
      decide ((o, i) ∈ st.impFrom.getD ((g.imps.getD o []).getD i 0) []))) &&
  (List.range g.n).all (fun o =>
    !decide (st.anchor.getD o none = some LS.app) || decide (o ∈ st.appSet)) &&
  (List.range g.n).all (fun o =>
    !decide (st.anchor.getD o none = some LS.opt) || decide (o ∈ st.optSet))

theorem linkedWF_facts {g : Graph} {st : MState} (h : linkedWF g st = true) :
    st.work.length = g.n ∧ st.anchor.length = g.n ∧
    (∀ o, st.work.getD o WSlot.clear = WSlot.clear) ∧
    (∀ s p, p ∈ st.impFrom.getD s [] → p.1 < g.n ∧
      p.2 < (g.imps.getD p.1 []).length ∧ (g.imps.getD p.1 []).getD p.2 0 = s ∧
      st.anchor.getD p.1 none ≠ none) ∧
    (∀ s, (st.impFrom.getD s []).Nodup) ∧
    (∀ o, st.anchor.getD o none ≠ none → ∀ i, i < (g.imps.getD o []).length →
      (o, i) ∈ st.impFrom.getD ((g.imps.getD o []).getD i 0) []) ∧
    (∀ o, st.anchor.getD o none = some LS.app → o ∈ st.appSet) ∧
    (∀ o, st.anchor.getD o none = some LS.opt → o ∈ st.optSet) := by
  rw [linkedWF] at h
  simp only [Bool.and_eq_true, List.all_eq_true, Bool.or_eq_true,
    Bool.not_eq_true', decide_eq_true_eq, decide_eq_false_iff_not,
    List.mem_range] at h
  obtain ⟨⟨⟨⟨⟨⟨hwlen, halen⟩, hwc⟩, hchains⟩, hlink⟩, happ⟩, hopt⟩ := h
  have hchain : ∀ s p, p ∈ st.impFrom.getD s [] → p.1 < g.n ∧
      p.2 < (g.imps.getD p.1 []).length ∧ (g.imps.getD p.1 []).getD p.2 0 = s ∧
      st.anchor.getD p.1 none ≠ none := by
    intro s p hp
    by_cases hs : s < st.impFrom.length
    · have h1 := (hchains s hs).2 p hp
      exact ⟨h1.1.1.1, h1.1.1.2, h1.1.2, h1.2⟩
    · rw [List.getD_eq_default _ _ (by omega)] at hp
      simp at hp
  have hanchN : ∀ o, st.anchor.getD o none ≠ none → o < g.n := by
    intro o ho
    have := getD_ne_default_lt _ _ _ ho
    rw [halen] at this
    exact this
  refine ⟨hwlen, halen, ?_, hchain, ?_, ?_, ?_, ?_⟩
  · intro o
    by_cases ho : o < st.work.length
    · refine hwc _ ?_
      rw [List.getD_eq_getElem st.work WSlot.clear ho]
      exact List.getElem_mem ho
    · exact List.getD_eq_default _ _ (by omega)
  · intro s
    by_cases hs : s < st.impFrom.length
    · exact (hchains s hs).1
    · rw [List.getD_eq_default _ _ (by omega)]
      exact List.nodup_nil
  · intro o ho i hi
    rcases hlink o (hanchN o ho) with h1 | h1
    · exact absurd h1 ho
    · exact h1 i hi
  · intro o ho
    rcases happ o (hanchN o (by rw [ho]; simp)) with h1 | h1
    · rw [ho] at h1
      simp at h1
    · exact h1
  · intro o ho
    rcases hopt o (hanchN o (by rw [ho]; simp)) with h1 | h1
    · rw [ho] at h1
      simp at h1
    · exact h1

set_option maxHeartbeats 1000000 in
/-- C2: on a well-formed fully linked state, `unlinkObj f` returns with
its reject flag set exactly when some member of the work list of objects
transitively importing from `f` (the export-closure, which includes `f`
itself) belongs to the Application link set, and when it rejects the
returned state is exactly the initial one — no importer chain, link-set
membership or anchor changes. -/
theorem unlinkObj_spec (g : Graph) (st : MState) (f : Nat)
    (hwf : graphWF g = true) (hlw : linkedWF g st = true)
    (hsrf : selfRefFree g st = true) (hf : f < g.n)
    (hfa : st.anchor.getD f none ≠ none) :
    ∃ reject st', unlinkObj g st f = some (reject, st') ∧
      (reject = true ↔ ∃ o, Relation.ReflTransGen (wstep g st true) f o ∧
        st.anchor.getD o none = some LS.app) ∧
      (reject = true → st' = st) := by
  obtain ⟨hwlen, halen, hwclear, hent, hndimp, hlinked, happMem, hoptMem⟩ :=
    linkedWF_facts hlw
  have himp : ImpRange g st := fun s p hp => (hent s p hp).1
  have hwsome := depwalk_total g hwf st f true true hwlen himp hsrf hf (hwclear f)
  obtain ⟨st1, hst1⟩ : ∃ st1, depwalk g st f true true = some st1 := by
    cases hd : depwalk g st f true true with
    | none =>
      rw [hd] at hwsome
      simp at hwsome
    | some s => exact ⟨s, rfl⟩
  obtain ⟨hanchEq, himpEq, happEq, hoptEq, hlen1, L, hwcL, hiff⟩ :=
    depwalk_build_spec g hwf st f true hwlen himp hwclear hf st1 hst1
  obtain ⟨hch, hndL, hmkL⟩ := hwcL
  have hmemlt : ∀ x ∈ L, x < st1.work.length :=
    fun x hx => getD_ne_default_lt _ _ _ ((hmkL x).mpr hx)
  have hLlen : L.length ≤ st1.work.length := nodup_lt_length_le hndL hmemlt
  have hchain : chainList (st1.work.length + 1) st1 f = L :=
    chainList_of_chainTo L st1 f hch (st1.work.length + 1) (by omega)
  have hun : unlinkObj g st f =
      (if L.any (fun o => decide (st1.anchor.getD o none = some LS.app)) then
        some (true, depwalkListRelease st1 f)
      else
        match foldUnlink g L st1 with
        | none => none
        | some st2 =>
          if checkSanityAll g st2 L then some (false, depwalkListRelease st2 f)
          else none) := by
    rw [unlinkObj, hst1]
    dsimp only
    rw [hchain]
  cases hb : L.any (fun o => decide (st1.anchor.getD o none = some LS.app)) with
  | true =>
    have hrel := workListRelease_chain L st1 f hch hndL (st1.work.length + 1)
      (by omega)
    have hst'eq : depwalkListRelease st1 f = st := by
      apply mstate_ext
      · exact hrel.1.trans hanchEq
      · exact hrel.2.1.trans himpEq
      · exact hrel.2.2.1.trans happEq
      · exact hrel.2.2.2.1.trans hoptEq
      · apply list_eq_of_getD _ _ WSlot.clear
        · show (workListRelease (st1.work.length + 1) st1 f).work.length =
            st.work.length
          rw [hrel.2.2.2.2.1, hlen1]
        · intro i
          show (workListRelease (st1.work.length + 1) st1 f).work.getD i
            WSlot.clear = st.work.getD i WSlot.clear
          rw [hrel.2.2.2.2.2 i]
          by_cases hiL : i ∈ L
          · rw [if_pos hiL, hwclear i]
          · rw [if_neg hiL]
            have h1 : st1.work.getD i WSlot.clear = WSlot.clear := by
              by_contra hc
              exact hiL ((hmkL i).mp hc)
            rw [h1, hwclear i]
    refine ⟨true, depwalkListRelease st1 f, ?_, ?_, fun _ => hst'eq⟩
    · rw [hun, if_pos hb]
    · constructor
      · intro _
        rcases List.any_eq_true.mp hb with ⟨o, hoL, hdec⟩
        rw [decide_eq_true_eq] at hdec
        refine ⟨o, (hiff o).mp hoL, ?_⟩
        rw [← hanchEq]
        exact hdec
      · intro _
        rfl
  | false =>
    have hnoapp : ∀ o ∈ L, st.anchor.getD o none ≠ some LS.app := by
      intro o hoL hc
      have hany : L.any (fun o => decide (st1.anchor.getD o none = some LS.app)) =
          true := List.any_eq_true.mpr ⟨o, hoL, by rw [hanchEq, hc]; simp⟩
      rw [hb] at hany
      simp at hany
    have hanchored : ∀ o, Relation.ReflTransGen (wstep g st true) f o →
        st.anchor.getD o none ≠ none := by
      intro o h
      induction h with
      | refl => exact hfa
      | tail hprev hstep ih =>
        rcases hstep with ⟨s, _, hr⟩
        rw [refsFor_exp] at hr
        rcases List.mem_map.mp hr with ⟨p, hp, hpr⟩
        rw [← hpr]
        exact (hent s p hp).2.2.2
    have hallopt : ∀ o ∈ L, st.anchor.getD o none = some LS.opt := by
      intro o hoL
      have h1 := hanchored o ((hiff o).mp hoL)
      cases hv : st.anchor.getD o none with
      | none => exact absurd hv h1
      | some v =>
        cases v with
        | app => exact absurd hv (hnoapp o hoL)
        | opt => rfl
    have hfold := foldUnlink_spec g st1
      (by
        intro s p hp
        rw [himpEq] at hp
        exact ⟨(hent s p hp).2.1, (hent s p hp).2.2.1⟩)
      L [] st1
      (by simpa using hndL)
      (by
        intro o hoL i hi
        show (o, i) ∈ st1.impFrom.getD ((g.imps.getD o []).getD i 0) []
        rw [himpEq]
        exact hlinked o (hanchored o ((hiff o).mp hoL)) i hi)
      (by
        intro o hoL
        rw [hanchEq]
        exact hallopt o hoL)
      (by
        intro o hoL
        rw [hoptEq]
        exact hoptMem o (hallopt o hoL))
      (by
        intro s p
        simp)
      (by
        intro s
        rw [himpEq]
        exact hndimp s)
      (fun o _ => rfl)
      (fun o _ => Iff.rfl)
    rcases hfold with ⟨st2, hst2eq, hmemF⟩
    have hsan : checkSanityAll g st2 L = true := by
      rw [checkSanityAll, List.all_eq_true]
      intro o hoL
      rw [List.all_eq_true]
      intro s hs
      rw [decide_eq_true_eq, List.eq_nil_iff_forall_not_mem]
      intro p hp
      rcases (hmemF s p).mp hp with ⟨hp1, _, hpL⟩
      rw [himpEq] at hp1
      have hstep : wstep g st true o p.1 := ⟨s, hs, List.mem_map_of_mem Prod.fst hp1⟩
      exact hpL ((hiff p.1).mpr (((hiff o).mp hoL).tail hstep))
    refine ⟨false, depwalkListRelease st2 f, ?_, ?_, ?_⟩
    · rw [hun, if_neg (by rw [hb]; simp), hst2eq]
      show (if checkSanityAll g st2 L then some (false, depwalkListRelease st2 f)
        else none) = some (false, depwalkListRelease st2 f)
      rw [if_pos hsan]
    · constructor
      · intro hc
        simp at hc
      · rintro ⟨o, hre, happ⟩
        have hoL : o ∈ L := (hiff o).mpr hre
        exact absurd happ (hnoapp o hoL)
    · intro hc
      simp at hc

/-- C2 witness graph: object 0 (Application) exports symbol 0, object 1
(Optional) imports it. -/
def ulG : Graph := { imps := [[], [0]], exps := [[0], []], expHead := [some 0] }

def ulSt : MState :=
  { anchor := [some LS.app, some LS.opt], impFrom := [[(1, 0)]],
    appSet := [0], optSet := [1], work := [WSlot.clear, WSlot.clear] }

/-- C2 witness: the theorem applied to a concrete linked two-object
state, unlinking the Optional leaf object 1. -/
theorem unlinkObj_spec_witness :
    ∃ reject st', unlinkObj ulG ulSt 1 = some (reject, st') ∧
      (reject = true ↔ ∃ o, Relation.ReflTransGen (wstep ulG ulSt true) 1 o ∧
        ulSt.anchor.getD o none = some LS.app) ∧
      (reject = true → st' = ulSt) :=
  unlinkObj_spec ulG ulSt 1 (by decide) (by decide) (by decide) (by decide)
    (by decide)

end Ldep
